import Mathlib

/-!
Verification development for the Morganite text-to-speech pipeline.

The repository has three source files:
* src/writer.rs : the segmented MP3 writer (Mp3Splitter) with its
  sample-format conversion helper f32_to_i16 and the capacity logic,
* src/main.rs : the dispatcher (semaphore-bounded task fan-out), the
  completion channel, the reorder-buffer consumer loop, and
* src/tts.rs : the external synthesis engine handle (opaque here).

This file gives a shallow embedding of those parts.  Sample values are
embedded as exact rationals; machine integers are modelled as Nat with the
relevant bounds made explicit; fallible code returns Except; the external
collaborators (MP3 encoder, file system, synthesis engine) are abstracted
to the events the claims mention (files created, frames handed to an
encoder instance, encoder finish/tail flushes), never to byte contents.
-/

namespace Morganite

/-! ## Sample conversion (src/writer.rs, f32_to_i16)

The Rust source:
```
fn f32_to_i16(x: f32) -> i16 {
    let x = x.clamp(-1.0, 1.0);
    (x * i16::MAX as f32) as i16
}
```
We embed the f32 values as exact rationals.  Rust clamp is the
if-chain below, and a float-to-integer `as` cast truncates toward zero and
saturates at the target bounds.  (With exact arithmetic the clamp keeps the
product inside i16 range, so the saturation never fires; the theorem for
claim C7 proves exactly that.)
-/

/-- Truncation toward zero, the rounding used by a Rust float-to-int cast. -/
def truncTowardZero (q : ℚ) : ℤ :=
  if 0 ≤ q then ⌊q⌋ else ⌈q⌉

/-- Rust clamp: if x < lo then lo else if hi < x then hi else x. -/
def rustClamp (x lo hi : ℚ) : ℚ :=
  if x < lo then lo else if hi < x then hi else x

/-- Rust `as i16` cast from a float value: truncate toward zero, then
saturate to the i16 range [-32768, 32767]. -/
def castToI16 (q : ℚ) : ℤ :=
  let t := truncTowardZero q
  if t < -32768 then -32768 else if 32767 < t then 32767 else t

/-- Embedding of writer.rs f32_to_i16: clamp to [-1, 1], scale by
i16::MAX = 32767, cast to i16. -/
def f32_to_i16 (x : ℚ) : ℤ :=
  castToI16 (rustClamp x (-1) 1 * 32767)

/-- The conversion as the specification words it: clamp to [-1,1], scale by
the maximum positive value of the 16-bit target width, truncate toward
zero.  (No saturation step is mentioned by the spec.) -/
def specSampleConversion (x : ℚ) : ℤ :=
  truncTowardZero (max (-1) (min 1 x) * 32767)

/-! ## The segmented writer (src/writer.rs, Mp3Splitter)

State of the splitter.  `hasOut` and `hasEnc` model the presence of the
`out : Option<BufWriter<File>>` and `enc : Option<Mp3Encoder>` fields.
`files` is the observable trace of segments: one entry per output file
created (in creation order, so `files.length` mirrors the `index` counter
used to name files), recording how many PCM frames were encoded into that
file.  `tailFlushes` counts the encoder finish events (the writes of
trailing encoder bytes), so that duplicated finalization would be visible.
The `pcm_i16` scratch buffer and the byte blocks returned by the external
encoder are not modelled; the output-file naming is I/O and also external.
-/

/-- The MP3 encoder configuration fields the core reads (shine_rs config
validation itself is external). -/
structure Mp3EncoderConfig where
  sample_rate : ℕ
  bitrate : ℕ
  channels : ℕ
  deriving DecidableEq

def SAMPLE_RATE : ℕ := 24000

def CHANNELS : ℕ := 1

/-- Embedding of writer.rs default_mono_24k_config. -/
def default_mono_24k_config (bitrate_kbps : ℕ) : Mp3EncoderConfig :=
  { sample_rate := SAMPLE_RATE, bitrate := bitrate_kbps, channels := CHANNELS }

/-- Errors of the writer model.  The Rust code carries anyhow string
contexts; each constructor names one of those error sites. -/
inductive WriterError where
  /-- "segment duration too small" in frames_for_duration -/
  | durationTooSmall
  /-- "segment duration too large" in frames_for_duration -/
  | durationTooLarge
  /-- "internal error: encoder exists without writer" in finish_current -/
  | encoderWithoutWriter
  /-- "only 1 or 2 channels supported" in write_f32_interleaved -/
  | badChannels
  /-- "interleaved buffer length must be a multiple of channels" -/
  | lengthNotMultiple
  /-- "config.channels must be 1 for mono" in write_f32_mono -/
  | monoRequiresOneChannel
  deriving DecidableEq

/-- Embedding of writer.rs frames_for_duration.  The duration is its exact
nanosecond count (u128 in Rust; the product ns * sample_rate cannot
overflow u128, so plain Nat arithmetic is faithful).  Floor division; the
result must be a positive frame count fitting u64. -/
def frames_for_duration (sample_rate ns : ℕ) : Except WriterError ℕ :=
  let frames := ns * sample_rate / 1000000000
  if frames = 0 then .error .durationTooSmall
  else if 2 ^ 64 - 1 < frames then .error .durationTooLarge
  else .ok frames

/-- Equality of model results is decidable, so witnesses can be checked by
evaluation. -/
instance {e a : Type} [DecidableEq e] [DecidableEq a] :
    DecidableEq (Except e a) := fun x y =>
  match x, y with
  | .error u, .error v =>
      if h : u = v then .isTrue (congrArg Except.error h)
      else .isFalse (fun hc => h (Except.error.inj hc))
  | .ok u, .ok v =>
      if h : u = v then .isTrue (congrArg Except.ok h)
      else .isFalse (fun hc => h (Except.ok.inj hc))
  | .error _, .ok _ => .isFalse Except.noConfusion
  | .ok _, .error _ => .isFalse Except.noConfusion

/-- State of writer.rs Mp3Splitter (the name-prefix string is dropped: it
only feeds file naming, which is external I/O). -/
structure Mp3Splitter where
  index : ℕ
  config : Mp3EncoderConfig
  frames_per_file : ℕ
  written_frames : ℕ
  hasOut : Bool
  hasEnc : Bool
  files : List ℕ
  tailFlushes : ℕ
  deriving DecidableEq

/-- Embedding of Mp3Splitter::new: compute frames_per_file from the segment
duration (given in nanoseconds), start with no open file and no encoder. -/
def Mp3Splitter.new (config : Mp3EncoderConfig) (segment_ns : ℕ) :
    Except WriterError Mp3Splitter :=
  match frames_for_duration config.sample_rate segment_ns with
  | .error e => .error e
  | .ok fpf =>
      .ok { index := 0, config := config, frames_per_file := fpf,
            written_frames := 0, hasOut := false, hasEnc := false,
            files := [], tailFlushes := 0 }

/-- Embedding of Mp3Splitter::finish_current.  If nothing is open, a no-op.
Taking the writer fails when the encoder exists without it.  Otherwise the
encoder (when present) is finished, its tail bytes are written (counted in
tailFlushes), the output is flushed and dropped, and written_frames resets. -/
def Mp3Splitter.finish_current (s : Mp3Splitter) : Except WriterError Mp3Splitter :=
  if s.hasOut = false ∧ s.hasEnc = false then .ok s
  else if s.hasOut = false then .error .encoderWithoutWriter
  else
    .ok { s with
          hasOut := false
          hasEnc := false
          written_frames := 0
          tailFlushes := s.tailFlushes + (if s.hasEnc then 1 else 0) }

/-- Embedding of Mp3Splitter::open_next: finish the current segment, then
create the next output file (recorded as a fresh entry in `files`, with the
index counter advancing as in the Rust path formatting) and a fresh encoder. -/
def Mp3Splitter.open_next (s : Mp3Splitter) : Except WriterError Mp3Splitter :=
  match s.finish_current with
  | .error e => .error e
  | .ok s1 =>
      .ok { s1 with
            index := s1.index + 1
            files := s1.files ++ [0]
            hasOut := true
            hasEnc := true
            written_frames := 0 }

/-- Add `n` frames to the most recently created file (the open segment). -/
def addToLast : List ℕ → ℕ → List ℕ
  | [], _ => []
  | [f], n => [f + n]
  | f :: g :: rest, n => f :: addToLast (g :: rest) n

/-- The frame loop of write_f32_interleaved.  `left` is the number of input
frames not yet consumed (total_frames - frame_offset in the Rust loop).
Each iteration first rotates if the current segment has no remaining room,
then takes min(remaining, left) frames, converts and hands them to the
encoder (recorded in `files`), and finally rotates when the segment became
exactly full while more input frames remain in this same call.

The Rust `while` loop makes progress because the constructor guarantees
frames_per_file >= 1, so every iteration consumes at least one frame;
`fuel` (instantiated with the total frame count of the call) makes that
termination measure explicit and keeps the definition structurally
recursive. -/
def Mp3Splitter.writeLoop : ℕ → Mp3Splitter → ℕ → Except WriterError Mp3Splitter
  | 0, s, _ => .ok s
  | _ + 1, s, 0 => .ok s
  | fuel + 1, s, left =>
      let rot := s.frames_per_file - s.written_frames = 0
      match (if rot then s.open_next else .ok s) with
      | .error e => .error e
      | .ok s1 =>
          let take := min (s1.frames_per_file - s1.written_frames) left
          let s2 := { s1 with
                      files := addToLast s1.files take
                      written_frames := s1.written_frames + take }
          let rot2 := s2.written_frames = s2.frames_per_file ∧ take < left
          match (if rot2 then s2.open_next else .ok s2) with
          | .error e => .error e
          | .ok s3 => Mp3Splitter.writeLoop fuel s3 (left - take)

/-- Embedding of Mp3Splitter::write_f32_interleaved.  Validates the channel
count and that the buffer length is a whole number of frames, opens segment
zero on the first call, then runs the frame loop.  Only the length of the
sample buffer drives the control flow (the sample values go through
f32_to_i16 into the external encoder). -/
def Mp3Splitter.write_f32_interleaved (s : Mp3Splitter) (samples : List ℚ) :
    Except WriterError Mp3Splitter :=
  let ch := s.config.channels
  if ¬(ch = 1 ∨ ch = 2) then .error .badChannels
  else if ¬(samples.length % ch = 0) then .error .lengthNotMultiple
  else
    match (if s.hasEnc = false then s.open_next else .ok s) with
    | .error e => .error e
    | .ok s1 =>
        let total := samples.length / ch
        Mp3Splitter.writeLoop total s1 total

/-- Embedding of Mp3Splitter::write_f32_mono. -/
def Mp3Splitter.write_f32_mono (s : Mp3Splitter) (samples : List ℚ) :
    Except WriterError Mp3Splitter :=
  if ¬(s.config.channels = 1) then .error .monoRequiresOneChannel
  else s.write_f32_interleaved samples

/-- Embedding of Mp3Splitter::finalize (consumes the writer in Rust, so no
operation can follow it there; here it is the same state transformer as
finish_current). -/
def Mp3Splitter.finalize (s : Mp3Splitter) : Except WriterError Mp3Splitter :=
  s.finish_current

/-- One externally visible writer operation. -/
inductive WriterOp where
  | write (samples : List ℚ)
  | finalizeOp
  deriving DecidableEq

/-- Run a sequence of writer operations, stopping at the first error. -/
def runOps (s : Mp3Splitter) : List WriterOp → Except WriterError Mp3Splitter
  | [] => .ok s
  | .write xs :: rest =>
      match s.write_f32_interleaved xs with
      | .error e => .error e
      | .ok s1 => runOps s1 rest
  | .finalizeOp :: rest =>
      match s.finalize with
      | .error e => .error e
      | .ok s1 => runOps s1 rest

/-- The write-call sequence of a list of sample buffers. -/
def writesOf (calls : List (List ℚ)) : List WriterOp :=
  calls.map WriterOp.write

/-- Total number of frames delivered by a list of write calls. -/
def totalFrames (ch : ℕ) (calls : List (List ℚ)) : ℕ :=
  (calls.map (fun c => c.length / ch)).sum

/-! ## The reorder-buffer consumer loop (src/main.rs, lines 270-283)

```
let mut next_expected: usize = 0;
let mut buffer: BTreeMap<usize, (Vec<f32>, Duration)> = BTreeMap::new();
while let Some((idx, res)) = rx.recv().await {
    let (audio, took) = res.expect_or_log("Failed to get synth result");
    buffer.insert(idx, (audio, took));
    while let Some((audio, took)) = buffer.remove(&next_expected) {
        mp3.write_f32_mono(&audio).expect_or_log("Failed to write to mp3");
        next_expected += 1;
    }
}
```
A message on the completion channel is a position together with the job
outcome: some sample buffer on success, none on synthesis failure (the
Duration payload drives only logging and is dropped).  The consumer is
modelled as a function of the full list of messages the channel delivers
before closing, in delivery order.  `expect_or_log` on an Err result
panics at once (note: its panic message does not contain the position);
that is the `panicked` outcome.  When the list is exhausted (the channel
closed and drained) the code falls through to `mp3.finalize()` and a
success log; that is the `finished` outcome, taken unconditionally. -/

/-- A sample buffer. -/
abbrev Samples := List ℚ

/-- One completion-channel message: position, and some samples or a
synthesis error. -/
abbrev Msg := ℕ × Option Samples

/-- The BTreeMap<usize, Vec<f32>> as an association list with unique keys:
remove the entry of a key, returning its payload and the rest. -/
def bremove (key : ℕ) : List (ℕ × Samples) → Option (Samples × List (ℕ × Samples))
  | [] => none
  | (j, a) :: rest =>
      if j = key then some (a, rest)
      else
        match bremove key rest with
        | none => none
        | some (x, rest2) => some (x, (j, a) :: rest2)

/-- BTreeMap insert: replace the payload of an existing key, else add. -/
def binsert (key : ℕ) (v : Samples) : List (ℕ × Samples) → List (ℕ × Samples)
  | [] => [(key, v)]
  | (j, a) :: rest =>
      if j = key then (key, v) :: rest else (j, a) :: binsert key v rest

/-- Consumer-loop state: next_expected, the buffer, and the trace of sample
buffers passed to mp3.write_f32_mono, in call order. -/
structure ConsumerState where
  next_expected : ℕ
  buffer : List (ℕ × Samples)
  written : List Samples
  deriving DecidableEq

/-- The inner while-let: repeatedly remove next_expected from the buffer,
write it and advance.  The loop runs at most buffer-many times, which the
fuel argument makes structural. -/
def drainLoop : ℕ → ConsumerState → ConsumerState
  | 0, c => c
  | fuel + 1, c =>
      match bremove c.next_expected c.buffer with
      | none => c
      | some (audio, buf2) =>
          drainLoop fuel
            { next_expected := c.next_expected + 1
              buffer := buf2
              written := c.written ++ [audio] }

/-- How one run of the consumer loop ends. -/
inductive ConsumerResult where
  /-- The channel closed and was drained; the code goes on to finalize the
  writer and report success, with no check of the buffer contents. -/
  | finished (c : ConsumerState)
  /-- expect_or_log panicked on an Err job result the moment it was
  received (the panic carries no position). -/
  | panicked (c : ConsumerState)
  deriving DecidableEq

/-- The consumer loop over the messages the channel delivers, in order. -/
def consumeMsgs : ConsumerState → List Msg → ConsumerResult
  | c, [] => .finished c
  | c, (_, none) :: _ => .panicked c
  | c, (idx, some audio) :: rest =>
      let buf := binsert idx audio c.buffer
      consumeMsgs (drainLoop buf.length { c with buffer := buf }) rest

/-- The consumer state at the start of each file run. -/
def consumerInit : ConsumerState := ⟨0, [], []⟩

/-- The written trace of a consumer run, however it ended. -/
def resultWritten : ConsumerResult → List Samples
  | .finished c => c.written
  | .panicked c => c.written

/-! ## The dispatcher pipeline (src/main.rs, lines 210-283)

```
let sem = Arc::new(Semaphore::new(cli.concurrency * 2));
let (tx, mut rx) = mpsc::channel::<Msg>(cli.concurrency * 2);
for (line_index, line) in total_lines.iter().enumerate() {
    let permit = sem.clone().acquire_owned().await?;
    set.spawn(async move { let _permit = permit; ... tx2.send((idx, res)).await; ... });
}
```
Transition system over the admission semaphore (capacity 2 * C where C is
the cli concurrency value), the bounded completion channel (capacity
2 * C, FIFO), and the consumer.  Jobs are admitted in input order; a job
holds its permit from admission until its task ends, right after its send
completes, so the permit release and the send are one event here.  Sample
payloads are irrelevant to admission and buffering, so the consumer is
tracked as next_expected plus the set of buffered positions (a successful
run; a failed job only stops the consumer earlier, leaving fewer buffered
entries). -/

/-- Consumer data tracked in the pipeline model.  The pending BTreeMap is
tracked by its key list (most recently inserted first; the guards keep it
duplicate-free, so its length is the number of map entries). -/
structure PipeConsumer where
  next_expected : ℕ
  pendingKeys : List ℕ
  deriving DecidableEq

/-- The drain loop on the key list alone. -/
def pdrain : ℕ → ℕ → List ℕ → ℕ × List ℕ
  | 0, ne, p => (ne, p)
  | fuel + 1, ne, p =>
      if ne ∈ p then pdrain fuel (ne + 1) (p.erase ne) else (ne, p)

/-- Map-insert of a key. -/
def keyInsert (pos : ℕ) (p : List ℕ) : List ℕ :=
  if pos ∈ p then p else pos :: p

/-- Receive one position: insert into the buffer, then drain. -/
def pconsume (pos : ℕ) (c : PipeConsumer) : PipeConsumer :=
  let p := keyInsert pos c.pendingKeys
  let r := pdrain p.length c.next_expected p
  ⟨r.1, r.2⟩

/-- Pipeline state: how many jobs were admitted (jobs 0..spawned-1, in
input order), which of them already sent their result (and released their
permit), the FIFO channel contents, and the consumer. -/
structure PipeState where
  spawned : ℕ
  sent : List ℕ
  chan : List ℕ
  cons : PipeConsumer
  deriving DecidableEq

def pInit : PipeState := ⟨0, [], [], ⟨0, []⟩⟩

/-- One pipeline step, for concurrency value c and job count n.  Permits
held are the admitted-but-not-finished jobs, spawned - sent.length. -/
inductive PipeStep (c n : ℕ) : PipeState → PipeState → Prop
  | spawn (s : PipeState) (h1 : s.spawned < n)
      (h2 : s.spawned - s.sent.length < 2 * c) :
      PipeStep c n s { s with spawned := s.spawned + 1 }
  | send (s : PipeState) (j : ℕ) (h1 : j < s.spawned) (h2 : j ∉ s.sent)
      (h3 : s.chan.length < 2 * c) :
      PipeStep c n s { s with sent := j :: s.sent, chan := s.chan ++ [j] }
  | recv (s : PipeState) (p : ℕ) (rest : List ℕ) (h : s.chan = p :: rest) :
      PipeStep c n s { s with chan := rest, cons := pconsume p s.cons }

/-- Reachable pipeline states. -/
def PipeReach (c n : ℕ) : PipeState → Prop :=
  Relation.ReflTransGen (PipeStep c n) pInit

/-- The list [i, i-1, ..., 1]. -/
def downFrom : ℕ → List ℕ
  | 0 => []
  | i + 1 => (i + 1) :: downFrom i

/-- A family of reachable states exhibiting unbounded reorder-buffer
growth at concurrency value 1: job 0 was admitted but is still running
while jobs 1..i were admitted one at a time afterwards, each finishing at
once and landing in the pending map, which job 0 blocks from draining. -/
def famState (i : ℕ) : PipeState :=
  ⟨i + 1, downFrom i, [], ⟨0, downFrom i⟩⟩

/-! ## Vocabulary for the theorem statements: invariants and loop
observations (Prop-valued records over the model states) -/

/-- Observations made by one run of the write_f32_interleaved frame loop,
started on an open segment holding w frames with earlier files F and left
input frames to consume: the files G closed during the loop are exactly
full, the open segment ends with w2 frames, and the frame ledger balances. -/
structure LoopOut (s : Mp3Splitter) (F : List ℕ) (w left : ℕ)
    (G : List ℕ) (w2 : ℕ) (s2 : Mp3Splitter) : Prop where
  config_eq : s2.config = s.config
  fpf_eq : s2.frames_per_file = s.frames_per_file
  out_eq : s2.hasOut = true
  enc_eq : s2.hasEnc = true
  files_eq : s2.files = F ++ G ++ [w2]
  written_eq : s2.written_frames = w2
  index_eq : s2.index = s.index + G.length
  all_full : ∀ g ∈ G, g = s.frames_per_file
  w2_le : w2 ≤ s.frames_per_file
  count : s.frames_per_file * G.length + w2 = w + left
  nil_case : left = 0 → s2 = s
  pos_case : 1 ≤ left → 1 ≤ w2

/-- The state invariant every successful splitter operation preserves:
the output file and the encoder are both present or both absent, the file
counter matches the number of files created, no file ever holds more than
frames_per_file frames, a closed writer has written_frames = 0, and an open
writer's current file is its last created one. -/
structure WInv (s : Mp3Splitter) : Prop where
  flags_eq : s.hasOut = s.hasEnc
  index_files : s.index = s.files.length
  w_le : s.written_frames ≤ s.frames_per_file
  files_le : ∀ f ∈ s.files, f ≤ s.frames_per_file
  closed_zero : s.hasOut = false → s.written_frames = 0
  open_last : s.hasOut = true → ∃ F, s.files = F ++ [s.written_frames]

/-- The file-ledger shape maintained while only write calls have run on a
writer built for capacity k: every closed file is exactly full and the open
(last) file holds w frames, with the delivered-frame total S balancing. -/
def C4Open (cfg : Mp3EncoderConfig) (k S : ℕ) (s : Mp3Splitter) : Prop :=
  s.config = cfg ∧ s.frames_per_file = k ∧ s.hasOut = true ∧ s.hasEnc = true ∧
  ∃ n w, s.files = List.replicate n k ++ [w] ∧ s.written_frames = w ∧
    w ≤ k ∧ k * n + w = S ∧ (1 ≤ S → 1 ≤ w)

/-- Consumer-loop invariant, relative to the payload function jobs and the
set R of positions whose Ok results were received so far: next_expected is
the length of the received contiguous head run, the buffer holds exactly
the received positions at or beyond next_expected with their payloads, and
the written trace is the payloads of the head run in position order. -/
structure CInv (jobs : ℕ → Samples) (R : Finset ℕ) (c : ConsumerState) :
    Prop where
  head_run : ∀ m, m < c.next_expected → m ∈ R
  gap : c.next_expected ∉ R
  nodup : (c.buffer.map Prod.fst).Nodup
  buf_sound : ∀ pa ∈ c.buffer,
    pa.1 ∈ R ∧ c.next_expected ≤ pa.1 ∧ pa.2 = jobs pa.1
  buf_complete : ∀ p ∈ R, c.next_expected ≤ p → p ∈ c.buffer.map Prod.fst
  written_eq : c.written = (List.range c.next_expected).map jobs

/-- The pipeline state invariant. -/
structure PInv (c n : ℕ) (s : PipeState) : Prop where
  sent_lt : ∀ j ∈ s.sent, j < s.spawned
  sent_nodup : s.sent.Nodup
  spawned_le : s.spawned ≤ n
  chan_sub : ∀ j ∈ s.chan, j ∈ s.sent
  pend_sub : ∀ j ∈ s.cons.pendingKeys, j ∈ s.sent
  pend_nodup : s.cons.pendingKeys.Nodup
  permits : s.spawned - s.sent.length ≤ 2 * c

/-! ## Writer lemmas: what each splitter operation does to the state -/

theorem addToLast_append (xs : List ℕ) (a n : ℕ) :
    addToLast (xs ++ [a]) n = xs ++ [a + n] := by
  induction xs with
  | nil => rfl
  | cons x xs ih =>
    cases xs with
    | nil => rfl
    | cons y ys => simpa [addToLast] using ih

theorem open_next_eq_true {s : Mp3Splitter} (h1 : s.hasOut = true)
    (h2 : s.hasEnc = true) :
    s.open_next = .ok { s with
      index := s.index + 1
      files := s.files ++ [0]
      hasOut := true
      hasEnc := true
      written_frames := 0
      tailFlushes := s.tailFlushes + 1 } := by
  simp [Mp3Splitter.open_next, Mp3Splitter.finish_current, h1, h2]

theorem open_next_eq_false {s : Mp3Splitter} (h1 : s.hasOut = false)
    (h2 : s.hasEnc = false) :
    s.open_next = .ok { s with
      index := s.index + 1
      files := s.files ++ [0]
      hasOut := true
      hasEnc := true
      written_frames := 0 } := by
  simp [Mp3Splitter.open_next, Mp3Splitter.finish_current, h1, h2]

theorem loopOut_nil {s : Mp3Splitter} {F : List ℕ} {w : ℕ}
    (hOut : s.hasOut = true) (hEnc : s.hasEnc = true)
    (hfiles : s.files = F ++ [w]) (hwr : s.written_frames = w)
    (hwle : w ≤ s.frames_per_file) :
    LoopOut s F w 0 [] w s := by
  refine ⟨rfl, rfl, hOut, hEnc, ?_, hwr, ?_, ?_, hwle, ?_, fun _ => rfl, ?_⟩
  · simpa using hfiles
  · simp
  · intro g hg; simp at hg
  · simp
  · intro h; omega

theorem writeLoop_spec : ∀ (fuel left : ℕ) (s : Mp3Splitter) (F : List ℕ) (w : ℕ),
    s.hasOut = true → s.hasEnc = true → s.files = F ++ [w] →
    s.written_frames = w → w ≤ s.frames_per_file → 1 ≤ s.frames_per_file →
    left ≤ fuel →
    ∃ G w2 s2, Mp3Splitter.writeLoop fuel s left = .ok s2 ∧
      LoopOut s F w left G w2 s2 := by
  intro fuel
  induction fuel with
  | zero =>
    intro left s F w hOut hEnc hfiles hwr hwle hk hle
    obtain rfl : left = 0 := Nat.le_zero.mp hle
    exact ⟨[], w, s, rfl, loopOut_nil hOut hEnc hfiles hwr hwle⟩
  | succ fuel ih =>
    intro left s F w hOut hEnc hfiles hwr hwle hk hle
    match left with
    | 0 => exact ⟨[], w, s, rfl, loopOut_nil hOut hEnc hfiles hwr hwle⟩
    | l + 1 =>
      obtain ⟨idx, cfg, k, wr, ho, he, fls, tf⟩ := s
      simp only [] at hOut hEnc hfiles hwr hwle hk ⊢
      subst hOut hEnc hfiles hwr
      simp only [Mp3Splitter.writeLoop]
      by_cases hrot : k - wr = 0
      · -- the open segment is exactly full: rotate before taking frames
        have hw : wr = k := by omega
        rw [if_pos hrot, open_next_eq_true rfl rfl]
        simp only [Nat.sub_zero, Nat.zero_add, addToLast_append]
        have htk1 : 1 ≤ k ⊓ (l + 1) := by omega
        have htk2 : k ⊓ (l + 1) ≤ l + 1 := by omega
        by_cases hr2 : k ⊓ (l + 1) = k ∧ k ⊓ (l + 1) < l + 1
        · rw [if_pos hr2, open_next_eq_true rfl rfl]
          simp only []
          obtain ⟨G', w2, s2, hrec, ho⟩ :=
            ih (l + 1 - k ⊓ (l + 1))
              ⟨idx + 1 + 1, cfg, k, 0, true, true,
                F ++ [wr] ++ [k ⊓ (l + 1)] ++ [0], tf + 1 + 1⟩
              (F ++ [wr] ++ [k ⊓ (l + 1)]) 0 rfl rfl rfl rfl
              (Nat.zero_le _) hk (by omega)
          refine ⟨wr :: k ⊓ (l + 1) :: G', w2, s2, hrec,
            ho.config_eq, ho.fpf_eq, ho.out_eq, ho.enc_eq, ?_, ho.written_eq,
            ?_, ?_, ho.w2_le, ?_, fun h => absurd h (Nat.succ_ne_zero l), ?_⟩
          · have := ho.files_eq
            simpa [List.append_assoc] using this
          · have := ho.index_eq
            simp only [List.length_cons] at this ⊢
            omega
          · intro g hg
            rcases hg with _ | ⟨_, hg⟩
            · exact hw
            · rcases hg with _ | ⟨_, hg⟩
              · exact hr2.1
              · exact ho.all_full g hg
          · show k * (wr :: k ⊓ (l + 1) :: G').length + w2 = wr + (l + 1)
            have hc : k * G'.length + w2 = 0 + (l + 1 - k ⊓ (l + 1)) := ho.count
            have hmul : k * (wr :: k ⊓ (l + 1) :: G').length
                = k * G'.length + 2 * k := by
              simp only [List.length_cons]; ring
            rw [hmul]
            rw [hr2.1] at hc
            have hlt := hr2.2
            rw [hr2.1] at hlt
            omega
          · intro _
            exact ho.pos_case (by omega)
        · rw [if_neg hr2]
          simp only []
          obtain ⟨G', w2, s2, hrec, ho⟩ :=
            ih (l + 1 - k ⊓ (l + 1))
              ⟨idx + 1, cfg, k, k ⊓ (l + 1), true, true,
                F ++ [wr] ++ [k ⊓ (l + 1)], tf + 1⟩
              (F ++ [wr]) (k ⊓ (l + 1)) rfl rfl rfl rfl
              (by simp) hk (by omega)
          refine ⟨wr :: G', w2, s2, hrec,
            ho.config_eq, ho.fpf_eq, ho.out_eq, ho.enc_eq, ?_, ho.written_eq,
            ?_, ?_, ho.w2_le, ?_, fun h => absurd h (Nat.succ_ne_zero l), ?_⟩
          · have := ho.files_eq
            simpa [List.append_assoc] using this
          · have := ho.index_eq
            simp only [List.length_cons] at this ⊢
            omega
          · intro g hg
            rcases hg with _ | ⟨_, hg⟩
            · exact hw
            · exact ho.all_full g hg
          · show k * (wr :: G').length + w2 = wr + (l + 1)
            have hc : k * G'.length + w2
                = k ⊓ (l + 1) + (l + 1 - k ⊓ (l + 1)) := ho.count
            have hmul : k * (wr :: G').length = k * G'.length + k := by
              simp only [List.length_cons]; ring
            rw [hmul]
            omega
          · intro _
            by_cases hz : l + 1 - k ⊓ (l + 1) = 0
            · have hs2 := ho.nil_case hz
              have hww := ho.written_eq
              rw [hs2] at hww
              simp only [] at hww
              omega
            · exact ho.pos_case (by omega)
      · -- room remains in the open segment: take frames directly
        have hwlt : wr < k := by omega
        rw [if_neg hrot]
        simp only [addToLast_append]
        have htk1 : 1 ≤ (k - wr) ⊓ (l + 1) := by omega
        have htk2 : (k - wr) ⊓ (l + 1) ≤ l + 1 := by omega
        have htk3 : (k - wr) ⊓ (l + 1) ≤ k - wr := by omega
        by_cases hr2 : wr + (k - wr) ⊓ (l + 1) = k ∧ (k - wr) ⊓ (l + 1) < l + 1
        · rw [if_pos hr2, open_next_eq_true rfl rfl]
          simp only []
          obtain ⟨G', w2, s2, hrec, ho⟩ :=
            ih (l + 1 - (k - wr) ⊓ (l + 1))
              ⟨idx + 1, cfg, k, 0, true, true,
                F ++ [wr + (k - wr) ⊓ (l + 1)] ++ [0], tf + 1⟩
              (F ++ [wr + (k - wr) ⊓ (l + 1)]) 0 rfl rfl rfl rfl
              (Nat.zero_le _) hk (by omega)
          refine ⟨(wr + (k - wr) ⊓ (l + 1)) :: G', w2, s2, hrec,
            ho.config_eq, ho.fpf_eq, ho.out_eq, ho.enc_eq, ?_, ho.written_eq,
            ?_, ?_, ho.w2_le, ?_, fun h => absurd h (Nat.succ_ne_zero l), ?_⟩
          · have := ho.files_eq
            simpa [List.append_assoc] using this
          · have := ho.index_eq
            simp only [List.length_cons] at this ⊢
            omega
          · intro g hg
            rcases hg with _ | ⟨_, hg⟩
            · exact hr2.1
            · exact ho.all_full g hg
          · show k * ((wr + (k - wr) ⊓ (l + 1)) :: G').length + w2 = wr + (l + 1)
            have hc : k * G'.length + w2
                = 0 + (l + 1 - (k - wr) ⊓ (l + 1)) := ho.count
            have hmul : k * ((wr + (k - wr) ⊓ (l + 1)) :: G').length
                = k * G'.length + k := by
              simp only [List.length_cons]; ring
            rw [hmul]
            have hm : wr + (k - wr) ⊓ (l + 1) = k := hr2.1
            omega
          · intro _
            exact ho.pos_case (by omega)
        · rw [if_neg hr2]
          simp only []
          obtain ⟨G', w2, s2, hrec, ho⟩ :=
            ih (l + 1 - (k - wr) ⊓ (l + 1))
              ⟨idx, cfg, k, wr + (k - wr) ⊓ (l + 1), true, true,
                F ++ [wr + (k - wr) ⊓ (l + 1)], tf⟩
              F (wr + (k - wr) ⊓ (l + 1)) rfl rfl rfl rfl
              (by simp; omega) hk (by omega)
          refine ⟨G', w2, s2, hrec,
            ho.config_eq, ho.fpf_eq, ho.out_eq, ho.enc_eq, ho.files_eq,
            ho.written_eq, ho.index_eq, ?_, ho.w2_le, ?_,
            fun h => absurd h (Nat.succ_ne_zero l), ?_⟩
          · exact fun g hg => ho.all_full g hg
          · show k * G'.length + w2 = wr + (l + 1)
            have hc : k * G'.length + w2
                = wr + (k - wr) ⊓ (l + 1) + (l + 1 - (k - wr) ⊓ (l + 1)) := ho.count
            omega
          · intro _
            by_cases hz : l + 1 - (k - wr) ⊓ (l + 1) = 0
            · have hs2 := ho.nil_case hz
              have hww := ho.written_eq
              rw [hs2] at hww
              simp only [] at hww
              omega
            · exact ho.pos_case (by omega)

/-- What a successful write call does when the writer already has an open
segment: exactly the frame loop, on the decomposition of the file list. -/
theorem write_spec_open {s s2 : Mp3Splitter} {xs : List ℚ} {F : List ℕ}
    (hOut : s.hasOut = true) (hEnc : s.hasEnc = true)
    (hfiles : s.files = F ++ [s.written_frames])
    (hwle : s.written_frames ≤ s.frames_per_file)
    (hk : 1 ≤ s.frames_per_file)
    (h : s.write_f32_interleaved xs = .ok s2) :
    ∃ G w2, LoopOut s F s.written_frames (xs.length / s.config.channels)
      G w2 s2 := by
  unfold Mp3Splitter.write_f32_interleaved at h
  simp only [] at h
  by_cases hch : s.config.channels = 1 ∨ s.config.channels = 2
  · rw [if_neg (not_not_intro hch)] at h
    by_cases hlen : xs.length % s.config.channels = 0
    · rw [if_neg (not_not_intro hlen)] at h
      rw [if_neg (by simp [hEnc])] at h
      simp only [] at h
      obtain ⟨G, w2, s2', hrec, ho⟩ :=
        writeLoop_spec (xs.length / s.config.channels)
          (xs.length / s.config.channels) s F s.written_frames
          hOut hEnc hfiles rfl hwle hk le_rfl
      rw [hrec] at h
      obtain rfl : s2' = s2 := by
        injection h
      exact ⟨G, w2, ho⟩
    · rw [if_pos hlen] at h
      exact absurd h (by simp)
  · rw [if_pos hch] at h
    exact absurd h (by simp)

/-- What a successful write call does when nothing is open yet (the very
first call): segment zero is created eagerly, then the frame loop runs. -/
theorem write_spec_closed {s s2 : Mp3Splitter} {xs : List ℚ}
    (hOut : s.hasOut = false) (hEnc : s.hasEnc = false)
    (hk : 1 ≤ s.frames_per_file)
    (h : s.write_f32_interleaved xs = .ok s2) :
    ∃ G w2, LoopOut { s with
        index := s.index + 1
        files := s.files ++ [0]
        hasOut := true
        hasEnc := true
        written_frames := 0 }
      s.files 0 (xs.length / s.config.channels) G w2 s2 := by
  unfold Mp3Splitter.write_f32_interleaved at h
  simp only [] at h
  by_cases hch : s.config.channels = 1 ∨ s.config.channels = 2
  · rw [if_neg (not_not_intro hch)] at h
    by_cases hlen : xs.length % s.config.channels = 0
    · rw [if_neg (not_not_intro hlen)] at h
      rw [if_pos hEnc, open_next_eq_false hOut hEnc] at h
      simp only [] at h
      obtain ⟨G, w2, s2', hrec, ho⟩ :=
        writeLoop_spec (xs.length / s.config.channels)
          (xs.length / s.config.channels)
          { s with
            index := s.index + 1
            files := s.files ++ [0]
            hasOut := true
            hasEnc := true
            written_frames := 0 }
          s.files 0 rfl rfl rfl rfl (Nat.zero_le _) hk le_rfl
      rw [hrec] at h
      obtain rfl : s2' = s2 := by
        injection h
      exact ⟨G, w2, ho⟩
    · rw [if_pos hlen] at h
      exact absurd h (by simp)
  · rw [if_pos hch] at h
    exact absurd h (by simp)

theorem finish_current_of_winv {s : Mp3Splitter} (hi : WInv s) :
    (s.hasOut = false ∧ s.finish_current = .ok s) ∨
    (s.hasOut = true ∧ s.finish_current = .ok { s with
      hasOut := false
      hasEnc := false
      written_frames := 0
      tailFlushes := s.tailFlushes + (if s.hasEnc then 1 else 0) }) := by
  cases hOut : s.hasOut with
  | false =>
    have hEnc : s.hasEnc = false := by rw [← hi.flags_eq, hOut]
    left
    exact ⟨rfl, by simp [Mp3Splitter.finish_current, hOut, hEnc]⟩
  | true =>
    right
    refine ⟨rfl, ?_⟩
    unfold Mp3Splitter.finish_current
    rw [if_neg (by simp [hOut]), if_neg (by simp [hOut])]

theorem finish_winv {s s2 : Mp3Splitter} (hi : WInv s)
    (h : s.finish_current = .ok s2) :
    WInv s2 ∧ s2.config = s.config ∧
      s2.frames_per_file = s.frames_per_file ∧ s2.files = s.files ∧
      s2.index = s.index ∧ s2.hasOut = false := by
  rcases finish_current_of_winv hi with ⟨hOut, heq⟩ | ⟨hOut, heq⟩
  · rw [heq] at h
    obtain rfl : s = s2 := by injection h
    exact ⟨hi, rfl, rfl, rfl, rfl, hOut⟩
  · rw [heq] at h
    obtain rfl : _ = s2 := by injection h
    refine ⟨⟨rfl, hi.index_files, Nat.zero_le _, hi.files_le,
      fun _ => rfl, fun hcon => by simp at hcon⟩, rfl, rfl, rfl, rfl, rfl⟩

theorem write_winv {s s2 : Mp3Splitter} {xs : List ℚ} (hi : WInv s)
    (hk : 1 ≤ s.frames_per_file)
    (h : s.write_f32_interleaved xs = .ok s2) :
    WInv s2 ∧ s2.config = s.config ∧
      s2.frames_per_file = s.frames_per_file := by
  cases hOut : s.hasOut with
  | true =>
    have hEnc : s.hasEnc = true := by rw [← hi.flags_eq, hOut]
    obtain ⟨F, hF⟩ := hi.open_last hOut
    obtain ⟨G, w2, ho⟩ := write_spec_open hOut hEnc hF hi.w_le hk h
    have hfle : ∀ f ∈ s2.files, f ≤ s.frames_per_file := by
      intro f hf
      rw [ho.files_eq] at hf
      simp only [List.mem_append, List.mem_singleton] at hf
      rcases hf with (hf | hf) | rfl
      · exact hi.files_le f (by rw [hF]; exact List.mem_append_left _ hf)
      · rw [ho.all_full f hf]
      · exact ho.w2_le
    refine ⟨⟨by rw [ho.out_eq, ho.enc_eq], ?_, ?_, ?_, ?_, ?_⟩, ho.config_eq,
      ho.fpf_eq⟩
    · rw [ho.index_eq, ho.files_eq, hi.index_files, hF]
      simp
      omega
    · rw [ho.written_eq, ho.fpf_eq]
      exact ho.w2_le
    · rw [ho.fpf_eq]
      exact hfle
    · rw [ho.out_eq]
      intro hcon
      cases hcon
    · intro _
      exact ⟨F ++ G, by rw [ho.files_eq, ho.written_eq, List.append_assoc]⟩
  | false =>
    have hEnc : s.hasEnc = false := by rw [← hi.flags_eq, hOut]
    obtain ⟨G, w2, ho⟩ := write_spec_closed hOut hEnc hk h
    have hfle : ∀ f ∈ s2.files, f ≤ s.frames_per_file := by
      intro f hf
      rw [ho.files_eq] at hf
      simp only [List.mem_append, List.mem_singleton] at hf
      rcases hf with (hf | hf) | rfl
      · exact hi.files_le f hf
      · exact le_of_eq (ho.all_full f hf)
      · exact ho.w2_le
    refine ⟨⟨by rw [ho.out_eq, ho.enc_eq], ?_, ?_, ?_, ?_, ?_⟩, ho.config_eq,
      ho.fpf_eq⟩
    · rw [ho.index_eq, ho.files_eq, hi.index_files]
      simp
      omega
    · rw [ho.written_eq, ho.fpf_eq]
      exact ho.w2_le
    · rw [ho.fpf_eq]
      exact hfle
    · rw [ho.out_eq]
      intro hcon
      cases hcon
    · intro _
      exact ⟨s.files ++ G, by rw [ho.files_eq, ho.written_eq, List.append_assoc]⟩

theorem runOps_winv : ∀ (ops : List WriterOp) (s s2 : Mp3Splitter),
    WInv s → 1 ≤ s.frames_per_file → runOps s ops = .ok s2 →
    WInv s2 ∧ s2.config = s.config ∧
      s2.frames_per_file = s.frames_per_file := by
  intro ops
  induction ops with
  | nil =>
    intro s s2 hi _ h
    obtain rfl : s = s2 := by
      simp only [runOps] at h
      injection h
    exact ⟨hi, rfl, rfl⟩
  | cons op rest ih =>
    intro s s2 hi hk h
    cases op with
    | write xs =>
      simp only [runOps] at h
      cases hw : s.write_f32_interleaved xs with
      | error e => rw [hw] at h; exact absurd h (by simp)
      | ok s1 =>
        rw [hw] at h
        simp only [] at h
        obtain ⟨hi1, hc1, hf1⟩ := write_winv hi hk hw
        obtain ⟨hi2, hc2, hf2⟩ := ih s1 s2 hi1 (hf1 ▸ hk) h
        exact ⟨hi2, hc2.trans hc1, hf2.trans hf1⟩
    | finalizeOp =>
      simp only [runOps] at h
      cases hw : s.finalize with
      | error e => rw [hw] at h; exact absurd h (by simp)
      | ok s1 =>
        rw [hw] at h
        simp only [] at h
        obtain ⟨hi1, hc1, hf1, _, _, _⟩ := finish_winv hi hw
        obtain ⟨hi2, hc2, hf2⟩ := ih s1 s2 hi1 (hf1 ▸ hk) h
        exact ⟨hi2, hc2.trans hc1, hf2.trans hf1⟩

/-- Characterization of a successful constructor run. -/
theorem new_ok {cfg : Mp3EncoderConfig} {ns : ℕ} {s0 : Mp3Splitter}
    (h : Mp3Splitter.new cfg ns = .ok s0) :
    s0 = ⟨0, cfg, ns * cfg.sample_rate / 1000000000, 0, false, false, [], 0⟩ ∧
      1 ≤ s0.frames_per_file := by
  unfold Mp3Splitter.new frames_for_duration at h
  simp only [] at h
  by_cases h0 : ns * cfg.sample_rate / 1000000000 = 0
  · rw [if_pos h0] at h
    exact absurd h (by simp)
  · rw [if_neg h0] at h
    by_cases h1 : 2 ^ 64 - 1 < ns * cfg.sample_rate / 1000000000
    · rw [if_pos h1] at h
      exact absurd h (by simp)
    · rw [if_neg h1] at h
      simp only [] at h
      obtain rfl : _ = s0 := by injection h
      exact ⟨rfl, Nat.pos_of_ne_zero h0⟩

theorem winv_new {cfg : Mp3EncoderConfig} {ns : ℕ} {s0 : Mp3Splitter}
    (h : Mp3Splitter.new cfg ns = .ok s0) : WInv s0 := by
  obtain ⟨rfl, _⟩ := new_ok h
  exact ⟨rfl, rfl, Nat.zero_le _, by simp, fun _ => rfl, fun hcon => by cases hcon⟩


/-! ## Writer claim machinery: precise frame accounting -/

theorem c4_write {cfg : Mp3EncoderConfig} {k S : ℕ} {s s2 : Mp3Splitter}
    {xs : List ℚ} (hc : C4Open cfg k S s) (hk : 1 ≤ k)
    (h : s.write_f32_interleaved xs = .ok s2) :
    C4Open cfg k (S + xs.length / cfg.channels) s2 := by
  obtain ⟨hcfg, hfpf, hOut, hEnc, n, w, hfl, hwr, hwle, hsum, hpos⟩ := hc
  obtain ⟨G, w2, ho⟩ := write_spec_open hOut hEnc
    (by rw [hfl, hwr]) (by rw [hwr, hfpf]; exact hwle) (by rw [hfpf]; exact hk) h
  have hGrep : G = List.replicate G.length k := by
    rw [List.eq_replicate_iff]
    exact ⟨rfl, fun g hg => by rw [ho.all_full g hg, hfpf]⟩
  have htot : xs.length / s.config.channels = xs.length / cfg.channels := by
    rw [hcfg]
  refine ⟨ho.config_eq.trans hcfg, ho.fpf_eq.trans hfpf, ho.out_eq, ho.enc_eq,
    n + G.length, w2, ?_, ho.written_eq, ?_, ?_, ?_⟩
  · rw [ho.files_eq, hGrep, ← List.replicate_add]
    simp
  · have := ho.w2_le
    rwa [hfpf] at this
  · have hcount := ho.count
    rw [hfpf, hwr, htot] at hcount
    rw [Nat.mul_add]
    omega
  · intro hS
    by_cases hz : xs.length / cfg.channels = 0
    · have hnil := ho.nil_case (by rw [htot, hz])
      have hww := ho.written_eq
      rw [hnil, hwr] at hww
      rw [hz] at hS
      have h1 := hpos (by omega)
      omega
    · exact ho.pos_case (by rw [htot]; exact Nat.pos_of_ne_zero hz)

theorem c4_first {cfg : Mp3EncoderConfig} {k : ℕ} {s0 s2 : Mp3Splitter}
    {xs : List ℚ}
    (hs0 : s0 = ⟨0, cfg, k, 0, false, false, [], 0⟩) (hk : 1 ≤ k)
    (h : s0.write_f32_interleaved xs = .ok s2) :
    C4Open cfg k (xs.length / cfg.channels) s2 := by
  subst hs0
  obtain ⟨G, w2, ho⟩ := write_spec_closed rfl rfl hk h
  have hGrep : G = List.replicate G.length k := by
    rw [List.eq_replicate_iff]
    exact ⟨rfl, fun g hg => ho.all_full g hg⟩
  refine ⟨ho.config_eq, ho.fpf_eq, ho.out_eq, ho.enc_eq,
    G.length, w2, ?_, ho.written_eq, ?_, ?_, ?_⟩
  · rw [ho.files_eq, hGrep]
    simp
  · exact ho.w2_le
  · have hcount : k * G.length + w2 = 0 + xs.length / cfg.channels := ho.count
    omega
  · intro hS
    exact ho.pos_case hS

theorem c4_run : ∀ (calls : List (List ℚ)) {cfg : Mp3EncoderConfig}
    {k S : ℕ} {s s2 : Mp3Splitter},
    C4Open cfg k S s → 1 ≤ k → runOps s (writesOf calls) = .ok s2 →
    C4Open cfg k (S + totalFrames cfg.channels calls) s2 := by
  intro calls
  induction calls with
  | nil =>
    intro cfg k S s s2 hc _ h
    obtain rfl : s = s2 := by
      simp only [writesOf, List.map_nil, runOps] at h
      injection h
    simpa [totalFrames] using hc
  | cons c rest ih =>
    intro cfg k S s s2 hc hk h
    simp only [writesOf, List.map_cons, runOps] at h
    cases hw : s.write_f32_interleaved c with
    | error e => rw [hw] at h; exact absurd h (by simp)
    | ok sA =>
      rw [hw] at h
      simp only [] at h
      have hA := c4_write hc hk hw
      have := ih hA hk h
      have harr : S + c.length / cfg.channels + totalFrames cfg.channels rest
          = S + totalFrames cfg.channels (c :: rest) := by
        simp [totalFrames]
        omega
      rwa [harr] at this

theorem finalize_keeps_files {s s2 : Mp3Splitter} (hOut : s.hasOut = true)
    (h : s.finalize = .ok s2) : s2.files = s.files := by
  unfold Mp3Splitter.finalize Mp3Splitter.finish_current at h
  rw [if_neg (by simp [hOut]), if_neg (by simp [hOut])] at h
  obtain rfl : _ = s2 := by injection h
  rfl

theorem runOps_append : ∀ (a b : List WriterOp) {s s2 : Mp3Splitter},
    runOps s (a ++ b) = .ok s2 →
    ∃ s1, runOps s a = .ok s1 ∧ runOps s1 b = .ok s2 := by
  intro a
  induction a with
  | nil =>
    intro b s s2 h
    exact ⟨s, rfl, h⟩
  | cons op rest ih =>
    intro b s s2 h
    cases op with
    | write xs =>
      simp only [List.cons_append, runOps] at h ⊢
      cases hw : s.write_f32_interleaved xs with
      | error e => rw [hw] at h; exact absurd h (by simp)
      | ok sA =>
        rw [hw] at h
        simp only [] at h
        exact ih b h
    | finalizeOp =>
      simp only [List.cons_append, runOps] at h ⊢
      cases hw : s.finalize with
      | error e => rw [hw] at h; exact absurd h (by simp)
      | ok sA =>
        rw [hw] at h
        simp only [] at h
        exact ih b h

theorem seg_count {k n w S : ℕ} (hk : 1 ≤ k) (hwle : w ≤ k) (hw1 : 1 ≤ w)
    (hsum : k * n + w = S) :
    n + 1 = if S % k = 0 then S / k else S / k + 1 := by
  rcases eq_or_lt_of_le hwle with heq | hlt
  · have hS : S = k * (n + 1) := by rw [← hsum, heq]; ring
    subst hS
    rw [if_pos (Nat.mul_mod_right k (n + 1)), Nat.mul_div_cancel_left _ hk]
  · have hmod : S % k = w := by
      rw [← hsum, Nat.mul_add_mod, Nat.mod_eq_of_lt hlt]
    have hdiv : S / k = n := by
      rw [← hsum, Nat.mul_add_div (by omega), Nat.div_eq_of_lt hlt]
      omega
    rw [if_neg (by omega), hdiv]

/-! ## Theorems: sample conversion (claim C7) -/

theorem rustClamp_eq_max_min (x : ℚ) : rustClamp x (-1) 1 = max (-1) (min 1 x) := by
  unfold rustClamp
  split_ifs with h1 h2
  · rw [min_eq_right (le_trans h1.le (by norm_num)), max_eq_left h1.le]
  · rw [min_eq_left h2.le, max_eq_right (by norm_num)]
  · rw [min_eq_right (not_lt.mp h2), max_eq_right (by linarith [not_lt.mp h1])]

theorem truncTowardZero_bounds {q : ℚ} {b : ℤ} (hb : 0 ≤ b)
    (h1 : -(b : ℚ) ≤ q) (h2 : q ≤ (b : ℚ)) :
    -b ≤ truncTowardZero q ∧ truncTowardZero q ≤ b := by
  unfold truncTowardZero
  split_ifs with h
  · constructor
    · exact le_trans (by omega) (Int.floor_nonneg.mpr h)
    · have hfl : ((⌊q⌋ : ℤ) : ℚ) ≤ (b : ℚ) := le_trans (Int.floor_le q) h2
      exact_mod_cast hfl
  · constructor
    · have hcl : -(b : ℚ) ≤ ((⌈q⌉ : ℤ) : ℚ) := le_trans h1 (Int.le_ceil q)
      exact_mod_cast hcl
    · have : ⌈q⌉ ≤ 0 := Int.ceil_le.mpr (by push_cast; exact le_of_not_le fun hq => h hq)
      omega

/-- C7 : for every float32 input sample x, the fixed-point value handed to
the codec equals x clamped to [-1, 1] and then scaled by 32767 with the
result truncated toward zero, exactly as the spec words it (the saturation
built into a Rust float-to-int cast never fires, because the clamp already
bounds the product), and the result lies in [-32767, 32767].  The
conversion is a pure function of the sample value, so equal inputs give
equal outputs. -/
theorem sample_conversion_matches_spec (x : ℚ) :
    f32_to_i16 x = specSampleConversion x ∧
    -32767 ≤ f32_to_i16 x ∧ f32_to_i16 x ≤ 32767 := by
  have hc : rustClamp x (-1) 1 = max (-1) (min 1 x) := rustClamp_eq_max_min x
  have hlo : (-1 : ℚ) ≤ max (-1) (min 1 x) := le_max_left _ _
  have hhi : max (-1) (min 1 x) ≤ 1 := by
    apply max_le (by norm_num) (min_le_left _ _)
  have hplo : -(32767 : ℚ) ≤ max (-1) (min 1 x) * 32767 := by nlinarith
  have hphi : max (-1) (min 1 x) * 32767 ≤ (32767 : ℚ) := by nlinarith
  have hb := truncTowardZero_bounds (q := max (-1) (min 1 x) * 32767)
    (b := 32767) (by norm_num) (by exact_mod_cast hplo) (by exact_mod_cast hphi)
  have hcast : castToI16 (max (-1) (min 1 x) * 32767)
      = truncTowardZero (max (-1) (min 1 x) * 32767) := by
    unfold castToI16
    have h1 : ¬ truncTowardZero (max (-1) (min 1 x) * 32767) < -32768 := by omega
    have h2 : ¬ 32767 < truncTowardZero (max (-1) (min 1 x) * 32767) := by omega
    simp only [h1, h2, if_false]
  have hmain : f32_to_i16 x = specSampleConversion x := by
    unfold f32_to_i16 specSampleConversion
    rw [hc, hcast]
  refine ⟨hmain, ?_, ?_⟩
  · rw [hmain]; exact hb.1
  · rw [hmain]; exact hb.2



/-! ## Consumer lemmas: the reorder-buffer loop (claims C1, C2, C3) -/

theorem binsert_not_mem : ∀ (buf : List (ℕ × Samples)) (i : ℕ) (v : Samples),
    i ∉ buf.map Prod.fst → binsert i v buf = buf ++ [(i, v)] := by
  intro buf
  induction buf with
  | nil => intro i v _; rfl
  | cons p rest ih =>
    intro i v h
    obtain ⟨j, a⟩ := p
    simp only [List.map_cons, List.mem_cons] at h
    push_neg at h
    simp only [binsert]
    rw [if_neg (fun hc => h.1 hc.symm), ih i v h.2]
    rfl

theorem bremove_mem : ∀ (buf : List (ℕ × Samples)) (key : ℕ),
    key ∈ buf.map Prod.fst →
    ∃ a buf2, bremove key buf = some (a, buf2) := by
  intro buf
  induction buf with
  | nil => intro key h; simp at h
  | cons p rest ih =>
    intro key h
    obtain ⟨j, a⟩ := p
    by_cases hj : j = key
    · exact ⟨a, rest, by simp [bremove, hj]⟩
    · simp only [List.map_cons, List.mem_cons] at h
      rcases h with h | h
      · exact absurd h.symm hj
      · obtain ⟨x, rest2, hx⟩ := ih key h
        exact ⟨x, (j, a) :: rest2, by simp [bremove, hj, hx]⟩

theorem bremove_spec : ∀ (buf : List (ℕ × Samples)) (key : ℕ) (a : Samples)
    (buf2 : List (ℕ × Samples)),
    (buf.map Prod.fst).Nodup → bremove key buf = some (a, buf2) →
    (key, a) ∈ buf ∧ (buf2.map Prod.fst).Nodup ∧
    (∀ pa ∈ buf2, pa ∈ buf) ∧
    (∀ p : ℕ, p ∈ buf2.map Prod.fst ↔ p ∈ buf.map Prod.fst ∧ p ≠ key) ∧
    buf2.length + 1 = buf.length := by
  intro buf
  induction buf with
  | nil => intro key a buf2 _ h; simp [bremove] at h
  | cons p rest ih =>
    intro key a buf2 hnd h
    obtain ⟨j, b⟩ := p
    simp only [List.map_cons, List.nodup_cons] at hnd
    obtain ⟨hj_notin, hnd2⟩ := hnd
    simp only [bremove] at h
    by_cases hj : j = key
    · rw [if_pos hj] at h
      injection h with h1
      cases h1
      subst hj
      refine ⟨List.mem_cons_self _ _, hnd2,
        fun pa hpa => List.mem_cons_of_mem _ hpa, ?_, rfl⟩
      intro p
      constructor
      · intro hp
        exact ⟨List.mem_cons_of_mem _ hp, fun hc => hj_notin (hc ▸ hp)⟩
      · intro ⟨hp, hne⟩
        rcases List.mem_cons.mp hp with rfl | hp
        · exact absurd rfl hne
        · exact hp
    · rw [if_neg hj] at h
      cases hbr : bremove key rest with
      | none => rw [hbr] at h; simp at h
      | some pr =>
        obtain ⟨x, rest2⟩ := pr
        rw [hbr] at h
        simp only [] at h
        injection h with h1
        have hax : a = x := (Prod.ext_iff.mp h1.symm).1
        have hbuf2 : buf2 = (j, b) :: rest2 := (Prod.ext_iff.mp h1.symm).2
        subst hax
        subst hbuf2
        obtain ⟨hmem, hnd3, hsub, hiff, hlen⟩ := ih key a rest2 hnd2 hbr
        refine ⟨List.mem_cons_of_mem _ hmem, ?_, ?_, ?_, ?_⟩
        · simp only [List.map_cons, List.nodup_cons]
          exact ⟨fun hc => hj_notin ((hiff j).mp hc).1, hnd3⟩
        · intro pa hpa
          rcases List.mem_cons.mp hpa with rfl | hpa
          · exact List.mem_cons_self _ _
          · exact List.mem_cons_of_mem _ (hsub pa hpa)
        · intro p
          simp only [List.map_cons, List.mem_cons]
          constructor
          · intro hp
            rcases hp with rfl | hp
            · exact ⟨Or.inl rfl, hj⟩
            · obtain ⟨h1, h2⟩ := (hiff p).mp hp
              exact ⟨Or.inr h1, h2⟩
          · intro ⟨hp, hne⟩
            rcases hp with rfl | hp
            · exact Or.inl rfl
            · exact Or.inr ((hiff p).mpr ⟨hp, hne⟩)
        · simp only [List.length_cons]
          omega

theorem drain_spec (jobs : ℕ → Samples) (R : Finset ℕ) :
    ∀ (fuel : ℕ) (c : ConsumerState),
    c.buffer.length ≤ fuel →
    (∀ m, m < c.next_expected → m ∈ R) →
    (c.buffer.map Prod.fst).Nodup →
    (∀ pa ∈ c.buffer, pa.1 ∈ R ∧ c.next_expected ≤ pa.1 ∧ pa.2 = jobs pa.1) →
    (∀ p ∈ R, c.next_expected ≤ p → p ∈ c.buffer.map Prod.fst) →
    c.written = (List.range c.next_expected).map jobs →
    CInv jobs R (drainLoop fuel c) := by
  intro fuel
  induction fuel with
  | zero =>
    intro c hlen hhead hnd hsound hcompl hwr
    have hbuf : c.buffer = [] := List.length_eq_zero.mp (Nat.le_zero.mp hlen)
    refine ⟨hhead, ?_, hnd, hsound, hcompl, hwr⟩
    intro hne
    have := hcompl _ hne le_rfl
    rw [hbuf] at this
    simp at this
  | succ fuel ih =>
    intro c hlen hhead hnd hsound hcompl hwr
    simp only [drainLoop]
    cases hbr : bremove c.next_expected c.buffer with
    | none =>
      refine ⟨hhead, ?_, hnd, hsound, hcompl, hwr⟩
      intro hne
      obtain ⟨a, buf2, hx⟩ := bremove_mem _ _ (hcompl _ hne le_rfl)
      rw [hbr] at hx
      cases hx
    | some pr =>
      obtain ⟨audio, buf2⟩ := pr
      obtain ⟨hmem, hnd2, hsub, hiff, hlen2⟩ := bremove_spec _ _ _ _ hnd hbr
      have haudio : audio = jobs c.next_expected := (hsound _ hmem).2.2
      apply ih
      · simp only []
        omega
      · intro m hm
        simp only [] at hm
        rcases Nat.lt_or_ge m c.next_expected with h1 | h1
        · exact hhead m h1
        · have : m = c.next_expected := by omega
          subst this
          exact (hsound _ hmem).1
      · exact hnd2
      · intro pa hpa
        obtain ⟨h1, h2, h3⟩ := hsound pa (hsub pa hpa)
        have hne : pa.1 ≠ c.next_expected := by
          have := (hiff pa.1).mp (List.mem_map_of_mem Prod.fst hpa)
          exact this.2
        exact ⟨h1, by simp only []; omega, h3⟩
      · intro p hp hle
        simp only [] at hle
        apply (hiff p).mpr
        exact ⟨hcompl p hp (by omega), by omega⟩
      · simp only [hwr, haudio]
        rw [List.range_succ, List.map_append]
        rfl

/-- Receiving one Ok result for a fresh position preserves the invariant,
with the position added to the received set. -/
theorem consume_step {jobs : ℕ → Samples} {R : Finset ℕ} {c : ConsumerState}
    {i : ℕ} (hi : CInv jobs R c) (hnotin : i ∉ R) :
    CInv jobs (insert i R)
      (drainLoop (binsert i (jobs i) c.buffer).length
        { c with buffer := binsert i (jobs i) c.buffer }) := by
  have hkeys : i ∉ c.buffer.map Prod.fst := by
    intro hc
    obtain ⟨pa, hpa, hfst⟩ := List.mem_map.mp hc
    exact hnotin (hfst ▸ (hi.buf_sound pa hpa).1)
  have hins := binsert_not_mem c.buffer i (jobs i) hkeys
  rw [hins]
  have hne_le : c.next_expected ≤ i := by
    by_contra hcon
    exact hnotin (hi.head_run i (by omega))
  apply drain_spec
  · exact le_rfl
  · intro m hm
    exact Finset.mem_insert_of_mem (hi.head_run m hm)
  · simp only [List.map_append]
    simp only [List.map_cons, List.map_nil]
    exact List.Nodup.append hi.nodup (by simp) (by simp [List.disjoint_singleton, hkeys])
  · intro pa hpa
    simp only [] at hpa
    rcases List.mem_append.mp hpa with hpa | hpa
    · obtain ⟨h1, h2, h3⟩ := hi.buf_sound pa hpa
      exact ⟨Finset.mem_insert_of_mem h1, h2, h3⟩
    · simp only [List.mem_singleton] at hpa
      subst hpa
      exact ⟨Finset.mem_insert_self _ _, hne_le, rfl⟩
  · intro p hp hle
    simp only [List.map_append, List.map_cons, List.map_nil, List.mem_append,
      List.mem_singleton]
    rcases Finset.mem_insert.mp hp with rfl | hp
    · exact Or.inr (by simp)
    · exact Or.inl (hi.buf_complete p hp hle)
  · exact hi.written_eq

/-- Processing a list of Ok results for fresh, pairwise distinct positions
ends the loop normally and extends the received set by those positions. -/
theorem consume_all_ok (jobs : ℕ → Samples) : ∀ (msgs : List Msg)
    (R : Finset ℕ) (c : ConsumerState),
    CInv jobs R c →
    (msgs.map Prod.fst).Nodup →
    (∀ m ∈ msgs, m.1 ∉ R ∧ m.2 = some (jobs m.1)) →
    ∃ c2, consumeMsgs c msgs = .finished c2 ∧
      CInv jobs (R ∪ (msgs.map Prod.fst).toFinset) c2 := by
  intro msgs
  induction msgs with
  | nil =>
    intro R c hi _ _
    exact ⟨c, rfl, by simpa using hi⟩
  | cons m rest ih =>
    intro R c hi hnd hmem
    obtain ⟨i, o⟩ := m
    obtain ⟨hiR, ho⟩ := hmem _ (List.mem_cons_self _ _)
    simp only [] at hiR ho
    subst ho
    simp only [consumeMsgs]
    simp only [List.map_cons, List.nodup_cons] at hnd

    have hmem2 : ∀ m ∈ rest, m.1 ∉ insert i R ∧ m.2 = some (jobs m.1) := by
      intro m hm
      obtain ⟨h1, h2⟩ := hmem m (List.mem_cons_of_mem _ hm)
      refine ⟨?_, h2⟩
      intro hc
      rcases Finset.mem_insert.mp hc with rfl | hc
      · exact hnd.1 (List.mem_map_of_mem Prod.fst hm)
      · exact h1 hc
    obtain ⟨c2, hrun, hc2⟩ := ih (insert i R) _ (consume_step hi hiR) hnd.2 hmem2
    refine ⟨c2, hrun, ?_⟩
    have hset : insert i R ∪ (rest.map Prod.fst).toFinset
        = R ∪ ((i :: rest.map Prod.fst).toFinset) := by
      ext p
      simp only [Finset.mem_union, Finset.mem_insert, List.toFinset_cons,
        List.mem_toFinset]
      tauto
    rw [hset] at hc2
    simpa using hc2

/-- Processing Ok results and then an Err result: the loop panics at the
Err arrival, with the state reached by the Ok results received before it. -/
theorem consume_until_err (jobs : ℕ → Samples) : ∀ (oks : List Msg) (j : ℕ)
    (tail : List Msg) (R : Finset ℕ) (c : ConsumerState),
    CInv jobs R c →
    (oks.map Prod.fst).Nodup →
    (∀ m ∈ oks, m.1 ∉ R ∧ m.2 = some (jobs m.1)) →
    ∃ c2, consumeMsgs c (oks ++ (j, none) :: tail) = .panicked c2 ∧
      CInv jobs (R ∪ (oks.map Prod.fst).toFinset) c2 := by
  intro oks
  induction oks with
  | nil =>
    intro j tail R c hi _ _
    exact ⟨c, rfl, by simpa using hi⟩
  | cons m rest ih =>
    intro j tail R c hi hnd hmem
    obtain ⟨i, o⟩ := m
    obtain ⟨hiR, ho⟩ := hmem _ (List.mem_cons_self _ _)
    simp only [] at hiR ho
    subst ho
    simp only [List.cons_append, consumeMsgs]
    simp only [List.map_cons, List.nodup_cons] at hnd

    have hmem2 : ∀ m ∈ rest, m.1 ∉ insert i R ∧ m.2 = some (jobs m.1) := by
      intro m hm
      obtain ⟨h1, h2⟩ := hmem m (List.mem_cons_of_mem _ hm)
      refine ⟨?_, h2⟩
      intro hc
      rcases Finset.mem_insert.mp hc with rfl | hc
      · exact hnd.1 (List.mem_map_of_mem Prod.fst hm)
      · exact h1 hc
    obtain ⟨c2, hrun, hc2⟩ := ih j tail (insert i R) _ (consume_step hi hiR) hnd.2 hmem2
    refine ⟨c2, hrun, ?_⟩
    have hset : insert i R ∪ (rest.map Prod.fst).toFinset
        = R ∪ ((i :: rest.map Prod.fst).toFinset) := by
      ext p
      simp only [Finset.mem_union, Finset.mem_insert, List.toFinset_cons,
        List.mem_toFinset]
      tauto
    rw [hset] at hc2
    simpa using hc2

/-- Any message list containing an Err splits at the first Err. -/
theorem split_first_err : ∀ (msgs : List Msg),
    (∃ m ∈ msgs, m.2 = (none : Option Samples)) →
    ∃ oks j tail, msgs = oks ++ (j, none) :: tail ∧
      ∀ m ∈ oks, m.2 ≠ (none : Option Samples) := by
  intro msgs
  induction msgs with
  | nil => intro h; simp at h
  | cons m rest ih =>
    intro h
    obtain ⟨i, o⟩ := m
    cases o with
    | none => exact ⟨[], i, rest, rfl, by simp⟩
    | some a =>
      have : ∃ m ∈ rest, m.2 = (none : Option Samples) := by
        obtain ⟨m, hm, hm2⟩ := h
        rcases List.mem_cons.mp hm with rfl | hm
        · simp at hm2
        · exact ⟨m, hm, hm2⟩
      obtain ⟨oks, j, tail, heq, hoks⟩ := ih this
      refine ⟨(i, some a) :: oks, j, tail, by rw [heq, List.cons_append], ?_⟩
      intro m hm
      rcases List.mem_cons.mp hm with rfl | hm
      · simp
      · exact hoks m hm

/-- A run whose messages are all Ok always ends in the normal-completion
branch (there is no other exit: the code checks nothing at channel close). -/
theorem all_ok_finishes : ∀ (msgs : List Msg) (c : ConsumerState),
    (∀ m ∈ msgs, m.2 ≠ (none : Option Samples)) →
    ∃ c2, consumeMsgs c msgs = .finished c2 := by
  intro msgs
  induction msgs with
  | nil => intro c _; exact ⟨c, rfl⟩
  | cons m rest ih =>
    intro c h
    obtain ⟨i, o⟩ := m
    cases o with
    | none => exact absurd rfl (h _ (List.mem_cons_self _ _))
    | some a =>
      simp only [consumeMsgs]
      exact ih _ (fun m hm => h m (List.mem_cons_of_mem _ hm))

theorem consumerInit_inv (jobs : ℕ → Samples) : CInv jobs ∅ consumerInit := by
  refine ⟨?_, ?_, ?_, ?_, ?_, ?_⟩
  · intro m hm
    simp [consumerInit] at hm
  · simp
  · simp [consumerInit]
  · intro pa hpa
    simp [consumerInit] at hpa
  · intro p hp
    simp at hp
  · simp [consumerInit]


/-! ## Theorems: the segmented writer (claims C4, C5, C9, C10) -/

/-- C5 : capacity bound invariant.  In every Mp3Splitter state reachable
from construction by any successful sequence of write and finalize calls,
written_frames <= frames_per_file holds, and every file ever created
received at most frames_per_file frames — so once a segment reaches the
capacity it is rotated before any further frame is accepted into it (a
frame count above the capacity is impossible in any file, closed or open). -/
theorem capacity_bound_invariant (cfg : Mp3EncoderConfig) (ns : ℕ)
    (s0 s : Mp3Splitter) (ops : List WriterOp)
    (hnew : Mp3Splitter.new cfg ns = .ok s0)
    (hrun : runOps s0 ops = .ok s) :
    s.written_frames ≤ s.frames_per_file ∧
      ∀ f ∈ s.files, f ≤ s.frames_per_file := by
  obtain ⟨hi, _, _⟩ := runOps_winv ops s0 s (winv_new hnew) (new_ok hnew).2 hrun
  exact ⟨hi.w_le, hi.files_le⟩

/-- Witness for C5 at a concrete run: capacity 24 frames, one write of one
frame, then finalize. -/
theorem capacity_bound_invariant_witness :
    (⟨1, default_mono_24k_config 64, 24, 0, false, false, [1], 1⟩ :
        Mp3Splitter).written_frames ≤
      (⟨1, default_mono_24k_config 64, 24, 0, false, false, [1], 1⟩ :
        Mp3Splitter).frames_per_file ∧
    ∀ f ∈ (⟨1, default_mono_24k_config 64, 24, 0, false, false, [1], 1⟩ :
        Mp3Splitter).files,
      f ≤ (⟨1, default_mono_24k_config 64, 24, 0, false, false, [1], 1⟩ :
        Mp3Splitter).frames_per_file :=
  capacity_bound_invariant (default_mono_24k_config 64) 1000000
    ⟨0, default_mono_24k_config 64, 24, 0, false, false, [], 0⟩
    ⟨1, default_mono_24k_config 64, 24, 0, false, false, [1], 1⟩
    [.write [(1 : ℚ) / 2], .finalizeOp] (by decide) (by decide)

/-- C10 : writer state coherence.  In every state reachable from
construction by successful write and finalize operations, the output file
handle and the encoder are both present or both absent; when both are
absent written_frames is 0; and finish_current never takes its internal
error branch (encoder exists without writer) on such a state. -/
theorem writer_state_coherence (cfg : Mp3EncoderConfig) (ns : ℕ)
    (s0 s : Mp3Splitter) (ops : List WriterOp)
    (hnew : Mp3Splitter.new cfg ns = .ok s0)
    (hrun : runOps s0 ops = .ok s) :
    s.hasOut = s.hasEnc ∧ (s.hasOut = false → s.written_frames = 0) ∧
      ∃ s3, s.finish_current = .ok s3 := by
  obtain ⟨hi, _, _⟩ := runOps_winv ops s0 s (winv_new hnew) (new_ok hnew).2 hrun
  refine ⟨hi.flags_eq, hi.closed_zero, ?_⟩
  rcases finish_current_of_winv hi with ⟨_, heq⟩ | ⟨_, heq⟩
  · exact ⟨s, heq⟩
  · exact ⟨_, heq⟩

/-- Witness for C10 at the same concrete run as the C5 witness. -/
theorem writer_state_coherence_witness :
    (⟨1, default_mono_24k_config 64, 24, 0, false, false, [1], 1⟩ :
        Mp3Splitter).hasOut =
      (⟨1, default_mono_24k_config 64, 24, 0, false, false, [1], 1⟩ :
        Mp3Splitter).hasEnc ∧
    ((⟨1, default_mono_24k_config 64, 24, 0, false, false, [1], 1⟩ :
        Mp3Splitter).hasOut = false →
      (⟨1, default_mono_24k_config 64, 24, 0, false, false, [1], 1⟩ :
        Mp3Splitter).written_frames = 0) ∧
    ∃ s3, (⟨1, default_mono_24k_config 64, 24, 0, false, false, [1], 1⟩ :
        Mp3Splitter).finish_current = .ok s3 :=
  writer_state_coherence (default_mono_24k_config 64) 1000000
    ⟨0, default_mono_24k_config 64, 24, 0, false, false, [], 0⟩
    ⟨1, default_mono_24k_config 64, 24, 0, false, false, [1], 1⟩
    [.write [(1 : ℚ) / 2], .finalizeOp] (by decide) (by decide)

/-- C9 : finalize is an idempotent no-op on a closed writer.  Finalizing a
never-written writer succeeds and changes nothing (in particular its
tailFlushes count stays 0: no encoder finish, no bytes).  And after any
successful finish_current, running finish_current again succeeds and
returns the state unchanged — same tailFlushes, so no duplicate trailing
bytes are ever produced. -/
theorem finalize_idempotent_noop (cfg : Mp3EncoderConfig) (ns : ℕ)
    (s0 : Mp3Splitter) (hnew : Mp3Splitter.new cfg ns = .ok s0) :
    s0.finalize = .ok s0 ∧
    ∀ s s1 : Mp3Splitter, s.finish_current = .ok s1 →
      s1.finish_current = .ok s1 := by
  obtain ⟨rfl, _⟩ := new_ok hnew
  constructor
  · simp [Mp3Splitter.finalize, Mp3Splitter.finish_current]
  · intro s s1 h
    unfold Mp3Splitter.finish_current at h ⊢
    by_cases hOE : s.hasOut = false ∧ s.hasEnc = false
    · rw [if_pos hOE] at h
      obtain rfl : s = s1 := by injection h
      rw [if_pos hOE]
    · rw [if_neg hOE] at h
      by_cases hO : s.hasOut = false
      · rw [if_pos hO] at h
        exact absurd h (by simp)
      · rw [if_neg hO] at h
        obtain rfl : _ = s1 := by injection h
        rw [if_pos ⟨rfl, rfl⟩]

/-- Witness for C9: a fresh writer, and a second finish after a finish of
a concrete open state. -/
theorem finalize_idempotent_noop_witness :
    (⟨0, default_mono_24k_config 64, 24, 0, false, false, [], 0⟩ :
        Mp3Splitter).finalize
      = .ok ⟨0, default_mono_24k_config 64, 24, 0, false, false, [], 0⟩ ∧
    (⟨1, default_mono_24k_config 64, 24, 0, false, false, [3], 1⟩ :
        Mp3Splitter).finish_current
      = .ok ⟨1, default_mono_24k_config 64, 24, 0, false, false, [3], 1⟩ :=
  ⟨(finalize_idempotent_noop (default_mono_24k_config 64) 1000000
      ⟨0, default_mono_24k_config 64, 24, 0, false, false, [], 0⟩ (by decide)).1,
   (finalize_idempotent_noop (default_mono_24k_config 64) 1000000
      ⟨0, default_mono_24k_config 64, 24, 0, false, false, [], 0⟩ (by decide)).2
     ⟨1, default_mono_24k_config 64, 24, 3, true, true, [3], 0⟩
     ⟨1, default_mono_24k_config 64, 24, 0, false, false, [3], 1⟩ (by decide)⟩

/-- C4 counterexample : the claimed segment-count formula fails for the
write-call sequence consisting of one empty write call.  It delivers S = 0
frames (an exact multiple of the capacity K = 24), so the claim requires
S / K = 0 segments, but the code opens segment zero eagerly on the first
write call — even one carrying no frames — and finalize then closes it,
producing one (empty) output file. -/
theorem frame_accounting_counterexample :
    Mp3Splitter.new (default_mono_24k_config 64) 1000000
        = .ok ⟨0, default_mono_24k_config 64, 24, 0, false, false, [], 0⟩ ∧
    (runOps ⟨0, default_mono_24k_config 64, 24, 0, false, false, [], 0⟩
        (writesOf [[]] ++ [.finalizeOp])).map Mp3Splitter.files = .ok [0] ∧
    totalFrames (default_mono_24k_config 64).channels [[]] = 0 ∧
    ¬ ([0] : List ℕ).length = 0 / 24 := by
  decide

/-- C4 (amended) : frame accounting.  For every capacity K >= 1 (as
produced by the constructor) and every successful sequence of write calls
delivering S total frames followed by finalize, the number of output files
equals ceil(S / K) — that is, S / K when K divides S and S / K + 1
otherwise — except that when S = 0 and at least one write call was made,
exactly one empty segment is produced, because the first write call opens
segment zero eagerly even when it carries no frames.  In particular no
empty trailing segment is created when S is a nonzero exact multiple of K:
rotation after an exactly filled segment is deferred until more input
arrives. -/
theorem frame_accounting_amended (cfg : Mp3EncoderConfig) (ns : ℕ)
    (s0 s : Mp3Splitter) (calls : List (List ℚ))
    (hnew : Mp3Splitter.new cfg ns = .ok s0)
    (hrun : runOps s0 (writesOf calls ++ [.finalizeOp]) = .ok s) :
    s.files.length =
      if totalFrames cfg.channels calls = 0 then (if calls = [] then 0 else 1)
      else if totalFrames cfg.channels calls % s0.frames_per_file = 0
        then totalFrames cfg.channels calls / s0.frames_per_file
        else totalFrames cfg.channels calls / s0.frames_per_file + 1 := by
  obtain ⟨hs0, hk⟩ := new_ok hnew
  obtain ⟨s1, hw, hf⟩ := runOps_append (writesOf calls) [.finalizeOp] hrun
  cases calls with
  | nil =>
    obtain rfl : s0 = s1 := by
      simp only [writesOf, List.map_nil, runOps] at hw
      injection hw
    have hfin : s0.finalize = .ok s0 := by
      rw [hs0]
      simp [Mp3Splitter.finalize, Mp3Splitter.finish_current]
    simp only [runOps] at hf
    rw [hfin] at hf
    simp only [runOps] at hf
    obtain rfl : s0 = s := by injection hf
    rw [hs0]
    simp [totalFrames]
  | cons c rest =>
    simp only [writesOf, List.map_cons, runOps] at hw
    cases hwc : s0.write_f32_interleaved c with
    | error e => rw [hwc] at hw; exact absurd hw (by simp)
    | ok sA =>
      rw [hwc] at hw
      simp only [] at hw
      have hk2 : 1 ≤ ns * cfg.sample_rate / 1000000000 := by
        rw [hs0] at hk
        exact hk
      have hA := c4_first hs0 hk2 hwc
      have hB := c4_run rest hA hk2 hw
      obtain ⟨hcfg1, hfpf1, hOut1, hEnc1, n, w, hfl1, hwr1, hwle1, hsum1, hpos1⟩ := hB
      have hfs : s.files = s1.files := by
        simp only [runOps] at hf
        cases hfin : s1.finalize with
        | error e => rw [hfin] at hf; exact absurd hf (by simp)
        | ok sF =>
          rw [hfin] at hf
          simp only [runOps] at hf
          obtain rfl : sF = s := by injection hf
          exact finalize_keeps_files hOut1 hfin
      have hcons : totalFrames cfg.channels (c :: rest)
          = c.length / cfg.channels + totalFrames cfg.channels rest := by
        simp [totalFrames]
      have hlen : s.files.length = n + 1 := by
        rw [hfs, hfl1]
        simp
      rw [hlen, hcons]
      have hkv : s0.frames_per_file = ns * cfg.sample_rate / 1000000000 := by
        rw [hs0]
      rw [hkv]
      by_cases hS0 : c.length / cfg.channels + totalFrames cfg.channels rest = 0
      · rw [if_pos hS0, if_neg (by simp : ¬(c :: rest : List (List ℚ)) = [])]
        rw [hS0] at hsum1
        have hn0 : n = 0 := by
          rcases Nat.eq_zero_of_add_eq_zero_right hsum1 with h1
          rcases Nat.mul_eq_zero.mp h1 with h2 | h2
          · omega
          · exact h2
        omega
      · rw [if_neg hS0]
        exact seg_count hk2 hwle1 (hpos1 (by omega)) hsum1

/-- Witness for C4 (amended) at the concrete scenario of the spec:
capacity 100 frames, write calls of 40, 70 and 30 frames, giving the two
files [100, 40]. -/
theorem frame_accounting_amended_witness :
    (⟨2, default_mono_24k_config 64, 100, 0, false, false, [100, 40], 2⟩ :
        Mp3Splitter).files.length =
      if totalFrames (default_mono_24k_config 64).channels
          [List.replicate 40 0, List.replicate 70 0, List.replicate 30 0] = 0
      then (if ([List.replicate 40 0, List.replicate 70 0,
          List.replicate 30 0] : List (List ℚ)) = [] then 0 else 1)
      else if totalFrames (default_mono_24k_config 64).channels
            [List.replicate 40 0, List.replicate 70 0, List.replicate 30 0] %
          (⟨0, default_mono_24k_config 64, 100, 0, false, false, [], 0⟩ :
            Mp3Splitter).frames_per_file = 0
        then totalFrames (default_mono_24k_config 64).channels
            [List.replicate 40 0, List.replicate 70 0, List.replicate 30 0] /
          (⟨0, default_mono_24k_config 64, 100, 0, false, false, [], 0⟩ :
            Mp3Splitter).frames_per_file
        else totalFrames (default_mono_24k_config 64).channels
            [List.replicate 40 0, List.replicate 70 0, List.replicate 30 0] /
          (⟨0, default_mono_24k_config 64, 100, 0, false, false, [], 0⟩ :
            Mp3Splitter).frames_per_file + 1 :=
  frame_accounting_amended (default_mono_24k_config 64) 4170000
    ⟨0, default_mono_24k_config 64, 100, 0, false, false, [], 0⟩
    ⟨2, default_mono_24k_config 64, 100, 0, false, false, [100, 40], 2⟩
    [List.replicate 40 0, List.replicate 70 0, List.replicate 30 0]
    (by decide) (by decide)


/-! ## Theorems: order preservation and failure handling of the consumer
loop (claims C1, C2, C3) -/

/-- C1 : order preservation.  For every finite list of N jobs with sample
buffers jobs 0, jobs 1, ..., and every order in which their (successful)
results arrive on the completion channel, the consumer loop finishes with
the sample buffers passed to the Segmented Writer being exactly
jobs 0, jobs 1, ..., jobs (N-1) in ascending position order — so the
concatenated output equals the concatenation of the job buffers in input
order, regardless of completion order.  (The final state also shows
next_expected = N and an empty reorder buffer.) -/
theorem order_preservation (N : ℕ) (jobs : ℕ → Samples) (msgs : List Msg)
    (hperm : msgs.Perm ((List.range N).map (fun i => (i, some (jobs i))))) :
    consumeMsgs consumerInit msgs
      = .finished ⟨N, [], (List.range N).map jobs⟩ := by
  have hfst : (msgs.map Prod.fst).Perm (List.range N) := by
    have h1 := hperm.map Prod.fst
    rw [List.map_map] at h1
    simpa [Function.comp_def] using h1
  have hnodup : (msgs.map Prod.fst).Nodup :=
    hfst.nodup_iff.mpr (List.nodup_range N)
  have hmem : ∀ m ∈ msgs, m.1 ∉ (∅ : Finset ℕ) ∧ m.2 = some (jobs m.1) := by
    intro m hm
    have h2 := hperm.mem_iff.mp hm
    simp only [List.mem_map, List.mem_range] at h2
    obtain ⟨i, _, rfl⟩ := h2
    exact ⟨by simp, rfl⟩
  obtain ⟨c2, hrun, hc2⟩ := consume_all_ok jobs msgs ∅ consumerInit
    (consumerInit_inv jobs) hnodup hmem
  have hRfin : (∅ : Finset ℕ) ∪ (msgs.map Prod.fst).toFinset
      = Finset.range N := by
    rw [Finset.empty_union]
    ext p
    simp only [List.mem_toFinset, Finset.mem_range, hfst.mem_iff,
      List.mem_range]
  rw [hRfin] at hc2
  have hne : c2.next_expected = N := by
    rcases Nat.lt_or_ge c2.next_expected N with hlt | hge
    · exact absurd (Finset.mem_range.mpr hlt) hc2.gap
    · rcases Nat.eq_or_lt_of_le hge with heq | hlt2
      · exact heq.symm
      · have := hc2.head_run N hlt2
        simp at this
  have hbuf : c2.buffer = [] := by
    cases hb : c2.buffer with
    | nil => rfl
    | cons pa rest =>
      obtain ⟨h1, h2, _⟩ := hc2.buf_sound pa (by rw [hb]; exact List.mem_cons_self _ _)
      rw [hne] at h2
      exact absurd (Finset.mem_range.mp h1) (by omega)
  have hwr := hc2.written_eq
  rw [hne] at hwr
  rw [hrun]
  obtain ⟨ne2, buf2, wr2⟩ := c2
  simp only [] at hne hbuf hwr
  rw [hne, hbuf, hwr]

/-- Witness for C1: three jobs arriving in the order 2, 0, 1 are written
in the order 0, 1, 2. -/
theorem order_preservation_witness :
    consumeMsgs consumerInit
      [(2, some [(2 : ℚ)]), (0, some [(0 : ℚ)]), (1, some [(1 : ℚ)])]
      = .finished ⟨3, [], (List.range 3).map (fun i => [(i : ℚ)])⟩ :=
  order_preservation 3 (fun i => [(i : ℚ)])
    [(2, some [(2 : ℚ)]), (0, some [(0 : ℚ)]), (1, some [(1 : ℚ)])]
    (by decide)

/-- C2 counterexample : the claim requires that when the job at position 1
(of 2) fails and position 0 succeeds, the consumer writes the samples of
position 0 before stopping, for every arrival order — including the order
in which the failed result arrives first.  In the code, expect_or_log
panics the moment the Err result is received: with arrival order
[result 1 = Err, result 0 = Ok [1]] nothing at all is written, not the
required [[1]], and the panic carries no position. -/
theorem failure_propagation_counterexample :
    consumeMsgs consumerInit [(1, none), (0, some [(1 : ℚ)])]
        = .panicked ⟨0, [], []⟩ ∧
    resultWritten (consumeMsgs consumerInit [(1, none), (0, some [(1 : ℚ)])])
        = [] ∧
    ¬ ([] : List Samples) = [[(1 : ℚ)]] := by
  decide

/-- C2 (amended) : failure propagation is fail-fast at arrival, not at the
position where the failure would be needed.  If the job at position k
fails while all jobs before k succeed, then for every arrival order the
consumer panics at the first received Err; at that point it has written
exactly the contiguous prefix of positions 0..m-1 for some m <= k (those
whose results all arrived before the first Err), it never writes position
k or any later position, m = k only when every earlier result arrived
before the failure, and the panic message identifies no position. -/
theorem failure_propagation_amended (N k : ℕ) (outcome : ℕ → Option Samples)
    (msgs : List Msg) (hkN : k < N)
    (hperm : msgs.Perm ((List.range N).map (fun i => (i, outcome i))))
    (hfail : outcome k = none)
    (_hok : ∀ j, j < k → (outcome j).isSome) :
    ∃ m c2, m ≤ k ∧ consumeMsgs consumerInit msgs = .panicked c2 ∧
      c2.written = (List.range m).map (fun i => (outcome i).getD []) := by
  have hfst : (msgs.map Prod.fst).Perm (List.range N) := by
    have h1 := hperm.map Prod.fst
    rw [List.map_map] at h1
    simpa [Function.comp_def] using h1
  have hnodup : (msgs.map Prod.fst).Nodup :=
    hfst.nodup_iff.mpr (List.nodup_range N)
  have hhas : ∃ m ∈ msgs, m.2 = (none : Option Samples) := by
    refine ⟨(k, none), ?_, rfl⟩
    apply hperm.mem_iff.mpr
    simp only [List.mem_map, List.mem_range]
    exact ⟨k, hkN, by rw [hfail]⟩
  obtain ⟨oks, j, tail, heq, hoks⟩ := split_first_err msgs hhas
  have hoksnd : (oks.map Prod.fst).Nodup := by
    rw [heq] at hnodup
    simp only [List.map_append] at hnodup
    exact hnodup.of_append_left
  have hshape : ∀ m ∈ msgs, m = (m.1, outcome m.1) := by
    intro m hm
    have h2 := hperm.mem_iff.mp hm
    simp only [List.mem_map, List.mem_range] at h2
    obtain ⟨i, _, rfl⟩ := h2
    rfl
  have hoksmem : ∀ m ∈ oks, m.1 ∉ (∅ : Finset ℕ) ∧
      m.2 = some ((outcome m.1).getD []) := by
    intro m hm
    have hmm : m ∈ msgs := by
      rw [heq]
      exact List.mem_append_left _ hm
    have h3 := hshape m hmm
    have h4 := hoks m hm
    refine ⟨by simp, ?_⟩
    cases ho : outcome m.1 with
    | none => rw [h3] at h4; simp [ho] at h4
    | some a => rw [h3, ho]; rfl
  obtain ⟨c2, hrun, hc2⟩ := consume_until_err (fun i => (outcome i).getD [])
    oks j tail ∅ consumerInit (consumerInit_inv _) hoksnd hoksmem
  rw [Finset.empty_union] at hc2
  have hkout : k ∉ (oks.map Prod.fst).toFinset := by
    intro hcon
    simp only [List.mem_toFinset, List.mem_map] at hcon
    obtain ⟨m, hm, hm1⟩ := hcon
    have h3 := hshape m (by rw [heq]; exact List.mem_append_left _ hm)
    have h4 := hoks m hm
    rw [h3, hm1, hfail] at h4
    exact h4 rfl
  have hmk : c2.next_expected ≤ k := by
    by_contra hcon
    exact hkout (hc2.head_run k (by omega))
  rw [← heq] at hrun
  exact ⟨c2.next_expected, c2, hmk, hrun, hc2.written_eq⟩

/-- Witness for C2 (amended): two jobs, position 1 fails and arrives
first; the consumer panics with m = 0 <= 1 writes. -/
theorem failure_propagation_amended_witness :
    ∃ m c2, m ≤ 1 ∧
      consumeMsgs consumerInit [(1, none), (0, some [(1 : ℚ)])]
        = .panicked c2 ∧
      c2.written = (List.range m).map
        (fun i => ((fun i => if i = 0 then some [(1 : ℚ)] else none) i).getD []) :=
  failure_propagation_amended 2 1
    (fun i => if i = 0 then some [(1 : ℚ)] else none)
    [(1, none), (0, some [(1 : ℚ)])] (by decide) (by decide) (by decide)
    (by
      intro j hj
      have hj0 : j = 0 := by omega
      subst hj0
      decide)

/-- C3 counterexample : with two jobs of which only position 1 is ever
delivered before the channel closes, the consumer ends in the
normal-completion branch (which goes on to finalize the writer and report
success) while the reorder buffer still holds the unyielded entry for
position 1 and next_expected = 0 < 2 — no consistency error of any kind
is raised. -/
theorem consistency_check_counterexample :
    consumeMsgs consumerInit [(1, some [(5 : ℚ)])]
        = .finished ⟨0, [(1, [(5 : ℚ)])], []⟩ ∧
    ¬ ((⟨0, [(1, [(5 : ℚ)])], []⟩ : ConsumerState).buffer = []) ∧
    (⟨0, [(1, [(5 : ℚ)])], []⟩ : ConsumerState).next_expected < 2 := by
  decide

/-- C3 (amended) : there is no consistency check at termination.  Whenever
the channel closes and is drained without any Err result having been
received, the consumer ends in the normal-completion branch — finalizing
the writer and reporting success — no matter which positions were never
delivered and regardless of what remains in the pending buffer; undelivered
positions are silently dropped. -/
theorem consistency_check_amended (msgs : List Msg)
    (hok : ∀ m ∈ msgs, m.2 ≠ (none : Option Samples)) :
    ∃ c2, consumeMsgs consumerInit msgs = .finished c2 :=
  all_ok_finishes msgs consumerInit hok

/-- Witness for C3 (amended) at the counterexample instance: one delivered
position (1 of an intended 2), normal finish. -/
theorem consistency_check_amended_witness :
    ∃ c2, consumeMsgs consumerInit [(1, some [(5 : ℚ)])] = .finished c2 :=
  consistency_check_amended [(1, some [(5 : ℚ)])] (by decide)


/-! ## Pipeline lemmas and theorems: bounded concurrency and reorder-buffer
memory (claims C6, C8) -/

theorem nodup_lt_length_le {l : List ℕ} {n : ℕ} (hnd : l.Nodup)
    (hlt : ∀ j ∈ l, j < n) : l.length ≤ n := by
  have hsub : l.toFinset ⊆ Finset.range n := by
    intro j hj
    exact Finset.mem_range.mpr (hlt j (List.mem_toFinset.mp hj))
  have hcard := Finset.card_le_card hsub
  rw [List.toFinset_card_of_nodup hnd, Finset.card_range] at hcard
  exact hcard

theorem downFrom_length : ∀ i : ℕ, (downFrom i).length = i := by
  intro i
  induction i with
  | zero => rfl
  | succ i ih => simp [downFrom, ih]

theorem mem_downFrom : ∀ (i j : ℕ), j ∈ downFrom i ↔ 1 ≤ j ∧ j ≤ i := by
  intro i
  induction i with
  | zero => intro j; simp [downFrom]; omega
  | succ i ih =>
    intro j
    simp only [downFrom, List.mem_cons, ih]
    omega

theorem pdrain_subset_nodup : ∀ (fuel ne : ℕ) (p : List ℕ), p.Nodup →
    (∀ j ∈ (pdrain fuel ne p).2, j ∈ p) ∧ (pdrain fuel ne p).2.Nodup := by
  intro fuel
  induction fuel with
  | zero => intro ne p hnd; exact ⟨fun j hj => hj, hnd⟩
  | succ fuel ih =>
    intro ne p hnd
    simp only [pdrain]
    by_cases hmem : ne ∈ p
    · rw [if_pos hmem]
      obtain ⟨h1, h2⟩ := ih (ne + 1) (p.erase ne) (hnd.erase ne)
      exact ⟨fun j hj => (p.erase_subset ne) (h1 j hj), h2⟩
    · rw [if_neg hmem]
      exact ⟨fun j hj => hj, hnd⟩

theorem pipe_inv {c n : ℕ} {s : PipeState} (h : PipeReach c n s) :
    PInv c n s := by
  induction h with
  | refl =>
    exact ⟨by simp [pInit], by simp [pInit], by simp [pInit], by simp [pInit],
      by simp [pInit], by simp [pInit], by simp [pInit]⟩
  | @tail b sc hr hstep ih =>
    cases hstep with
    | spawn h1 h2 =>
      refine ⟨?_, ih.sent_nodup, ?_, ih.chan_sub, ih.pend_sub,
        ih.pend_nodup, ?_⟩
      · intro j hj
        have := ih.sent_lt j hj
        simp only []
        omega
      · simp only []
        omega
      · have hlen : b.sent.length ≤ b.spawned :=
          nodup_lt_length_le ih.sent_nodup ih.sent_lt
        simp only []
        omega
    | send j h1 h2 h3 =>
      refine ⟨?_, ?_, ih.spawned_le, ?_, ?_, ih.pend_nodup, ?_⟩
      · intro i hi
        simp only [List.mem_cons] at hi
        rcases hi with rfl | hi
        · exact h1
        · exact ih.sent_lt i hi
      · simp only [List.nodup_cons]
        exact ⟨h2, ih.sent_nodup⟩
      · intro i hi
        simp only [List.mem_append, List.mem_singleton] at hi
        simp only [List.mem_cons]
        rcases hi with hi | rfl
        · exact Or.inr (ih.chan_sub i hi)
        · exact Or.inl rfl
      · intro i hi
        exact List.mem_cons_of_mem _ (ih.pend_sub i hi)
      · have hlen : b.spawned - b.sent.length ≤ 2 * c := ih.permits
        simp only [List.length_cons]
        omega
    | recv p rest h =>
      have hp_sent : p ∈ b.sent :=
        ih.chan_sub p (by rw [h]; exact List.mem_cons_self _ _)
      have hins_sub : ∀ j ∈ keyInsert p b.cons.pendingKeys, j ∈ b.sent := by
        intro j hj
        unfold keyInsert at hj
        by_cases hmem : p ∈ b.cons.pendingKeys
        · rw [if_pos hmem] at hj
          exact ih.pend_sub j hj
        · rw [if_neg hmem] at hj
          rcases List.mem_cons.mp hj with rfl | hj
          · exact hp_sent
          · exact ih.pend_sub j hj
      have hins_nd : (keyInsert p b.cons.pendingKeys).Nodup := by
        unfold keyInsert
        by_cases hmem : p ∈ b.cons.pendingKeys
        · rw [if_pos hmem]; exact ih.pend_nodup
        · rw [if_neg hmem]
          simp only [List.nodup_cons]
          exact ⟨hmem, ih.pend_nodup⟩
      obtain ⟨hdr_sub, hdr_nd⟩ := pdrain_subset_nodup
        (keyInsert p b.cons.pendingKeys).length b.cons.next_expected
        (keyInsert p b.cons.pendingKeys) hins_nd
      refine ⟨ih.sent_lt, ih.sent_nodup, ih.spawned_le, ?_, ?_, hdr_nd,
        ih.permits⟩
      · intro j hj
        simp only [] at hj
        apply ih.chan_sub
        rw [h]
        exact List.mem_cons_of_mem _ hj
      · intro j hj
        exact hins_sub j (hdr_sub j hj)

/-- C6 counterexample : with the configured concurrency value C = 1 and
two jobs, the state in which both jobs have been admitted and neither has
finished is reachable — the admission semaphore is created with C * 2 = 2
permits (main.rs line 210), so 2 > C jobs execute simultaneously. -/
theorem bounded_concurrency_counterexample :
    PipeReach 1 2 ⟨2, [], [], ⟨0, []⟩⟩ ∧
      ¬((⟨2, [], [], ⟨0, []⟩⟩ : PipeState).spawned -
          (⟨2, [], [], ⟨0, []⟩⟩ : PipeState).sent.length ≤ 1) := by
  constructor
  · have h1 : PipeStep 1 2 pInit ⟨1, [], [], ⟨0, []⟩⟩ :=
      PipeStep.spawn pInit (by decide) (by decide)
    have h2 : PipeStep 1 2 ⟨1, [], [], ⟨0, []⟩⟩ ⟨2, [], [], ⟨0, []⟩⟩ :=
      PipeStep.spawn ⟨1, [], [], ⟨0, []⟩⟩ (by decide) (by decide)
    exact Relation.ReflTransGen.tail (Relation.ReflTransGen.single h1) h2
  · decide

/-- C6 (amended) : bounded concurrency holds with bound 2 * C, not C.  In
every reachable pipeline state, the number of admitted-but-unfinished jobs
(the permits held on the admission semaphore, which is built with
concurrency * 2 permits) is at most 2 * C; a job beyond that limit waits
for a slot. -/
theorem bounded_concurrency_amended (c n : ℕ) (s : PipeState)
    (h : PipeReach c n s) : s.spawned - s.sent.length ≤ 2 * c :=
  (pipe_inv h).permits

/-- Witness for C6 (amended) at the reachable two-spawn state with C = 1. -/
theorem bounded_concurrency_amended_witness :
    (⟨2, [], [], ⟨0, []⟩⟩ : PipeState).spawned -
        (⟨2, [], [], ⟨0, []⟩⟩ : PipeState).sent.length ≤ 2 * 1 :=
  bounded_concurrency_amended 1 2 ⟨2, [], [], ⟨0, []⟩⟩
    (Relation.ReflTransGen.tail
      (Relation.ReflTransGen.single
        (PipeStep.spawn pInit (by decide) (by decide)))
      (PipeStep.spawn ⟨1, [], [], ⟨0, []⟩⟩ (by decide) (by decide)))

theorem pconsume_fam (i : ℕ) :
    pconsume (i + 1) ⟨0, downFrom i⟩ = ⟨0, downFrom (i + 1)⟩ := by
  unfold pconsume
  have hnotin : (i + 1) ∉ downFrom i := by
    rw [mem_downFrom]
    omega
  have hins : keyInsert (i + 1) (downFrom i) = downFrom (i + 1) := by
    unfold keyInsert
    rw [if_neg hnotin]
    rfl
  simp only []
  rw [hins]
  have h0 : (0 : ℕ) ∉ downFrom (i + 1) := by
    rw [mem_downFrom]
    omega
  rw [downFrom_length]
  simp only [pdrain]
  rw [if_neg h0]

/-- The unbounded-growth family is reachable: with C = 1 and n + 1 jobs,
job 0 is admitted and stays running while jobs 1..i are admitted one at a
time, each finishing at once and landing in the pending map. -/
theorem famState_reach : ∀ (n i : ℕ), i ≤ n →
    PipeReach 1 (n + 1) (famState i) := by
  intro n i
  induction i with
  | zero =>
    intro _
    exact Relation.ReflTransGen.single
      (PipeStep.spawn pInit (by show (0 : ℕ) < n + 1; omega) (by decide))
  | succ i ih =>
    intro hle
    have hreach := ih (by omega)
    have h1 : PipeStep 1 (n + 1) (famState i)
        ⟨i + 2, downFrom i, [], ⟨0, downFrom i⟩⟩ := by
      have := PipeStep.spawn (c := 1) (n := n + 1) (famState i)
        (by simp only [famState]; omega)
        (by simp only [famState, downFrom_length]; omega)
      simpa [famState] using this
    have h2 : PipeStep 1 (n + 1) ⟨i + 2, downFrom i, [], ⟨0, downFrom i⟩⟩
        ⟨i + 2, downFrom (i + 1), [i + 1], ⟨0, downFrom i⟩⟩ := by
      have hnotin : (i + 1) ∉ downFrom i := by
        rw [mem_downFrom]; omega
      have := PipeStep.send (c := 1) (n := n + 1)
        ⟨i + 2, downFrom i, [], ⟨0, downFrom i⟩⟩ (i + 1)
        (by simp only []; omega) (by simpa using hnotin) (by simp)
      simpa [downFrom] using this
    have h3 : PipeStep 1 (n + 1)
        ⟨i + 2, downFrom (i + 1), [i + 1], ⟨0, downFrom i⟩⟩
        (famState (i + 1)) := by
      have := PipeStep.recv (c := 1) (n := n + 1)
        ⟨i + 2, downFrom (i + 1), [i + 1], ⟨0, downFrom i⟩⟩ (i + 1) [] rfl
      simpa [famState, pconsume_fam] using this
    exact ((hreach.tail h1).tail h2).tail h3

/-- C8 counterexample : with concurrency value C = 1 and five jobs, a
reachable state holds 4 entries in the reorder buffer pending map —
more than C in-flight results plus the channel capacity 2 * C (the spec
bound of C in-flight plus queueing slack).  Admission permits are released
as each job finishes, so completed out-of-order results accumulate without
any bound tied to C. -/
theorem reorder_memory_counterexample :
    PipeReach 1 5 (famState 4) ∧
      1 + 2 * 1 < (famState 4).cons.pendingKeys.length := by
  exact ⟨famState_reach 4 4 le_rfl, by decide⟩

/-- C8 (amended) : the reorder buffer pending map is NOT bounded by a
function of the concurrency limit alone: for every m, with C = 1 a run of
m + 1 jobs reaches a state whose pending map holds m entries (job 0 still
running, jobs 1..m completed and buffered).  The only general bound is the
total job count: in every reachable state the pending map holds at most n
entries. -/
theorem reorder_memory_amended :
    (∀ (c n : ℕ) (s : PipeState), PipeReach c n s →
      s.cons.pendingKeys.length ≤ n) ∧
    (∀ m : ℕ, PipeReach 1 (m + 1) (famState m) ∧
      (famState m).cons.pendingKeys.length = m) := by
  constructor
  · intro c n s h
    have hi := pipe_inv h
    exact nodup_lt_length_le hi.pend_nodup
      (fun j hj => lt_of_lt_of_le (hi.sent_lt j (hi.pend_sub j hj))
        hi.spawned_le)
  · intro m
    exact ⟨famState_reach m m le_rfl, by simp [famState, downFrom_length]⟩

/-- Witness for C8 (amended): the general bound applied at the initial
state, and the growth family at m = 4. -/
theorem reorder_memory_amended_witness :
    pInit.cons.pendingKeys.length ≤ 1 ∧
      (famState 4).cons.pendingKeys.length = 4 :=
  ⟨reorder_memory_amended.1 1 1 pInit Relation.ReflTransGen.refl,
   (reorder_memory_amended.2 4).2⟩

end Morganite
